import Mathlib

/-!
Verification of the porto container supervisor against its specification.

The C++ sources are shallowly embedded: `std::string` values become
`List Char`, machine integers become `Nat` (with explicit modular reduction
where overflow is possible), fallible operations return `Except`, and
filesystem state is passed explicitly.  Each definition mirrors one source
function and is named after it.
-/

namespace Porto

/-- The string type used by the embedding: a C++ `std::string` as its
character sequence. -/
abbrev Str := List Char

/-- `StringStartsWith(str, prefix)` from `util/string`: byte-wise check that
the second argument is an initial segment of the first. -/
def stringStartsWith : Str → Str → Bool
  | _, [] => true
  | [], _ :: _ => false
  | c :: s, d :: p => c == d && stringStartsWith s p

theorem stringStartsWith_iff (s p : Str) :
    stringStartsWith s p = true ↔ p <+: s := by
  induction p generalizing s with
  | nil => simp [stringStartsWith]
  | cons d p ih =>
    cases s with
    | nil => simp [stringStartsWith]
    | cons c s =>
      simp only [stringStartsWith, Bool.and_eq_true, beq_iff_eq, ih,
        List.cons_prefix_cons]
      tauto

/-! ## C1 — container name validation (`TContainerHolder::ValidName`) -/

/-- `ROOT_CONTAINER`: the root container name `/`. -/
def rootContainer : Str := ['/']

/-- `PORTO_ROOT_CONTAINER`: the porto root container name `/porto`. -/
def portoRootContainer : Str := "/porto".toList

/-- The character test inside `TContainerHolder::ValidName`:
`isalnum(c) || c == '_' || c == '/' || c == '-' || c == '@' || c == ':' || c == '.'`
(`isalnum` in the C locale accepts exactly ASCII letters and digits). -/
def validNameChar (c : Char) : Bool :=
  c.isAlphanum || c == '_' || c == '/' || c == '-' || c == '@' || c == ':' || c == '.'

/-- The scan `for (i; i + 1 < len; i++) if (name[i] == '/' && name[i+1] == '/') return false`
from `TContainerHolder::ValidName`: `true` iff no two adjacent slashes occur. -/
def noDoubleSlash : Str → Bool
  | c :: d :: rest => !(c == '/' && d == '/') && noDoubleSlash (d :: rest)
  | _ => true

/-- `TContainerHolder::ValidName` (src/holder.cpp).

Note on the trailing-slash test: the source writes `*(name.end()--) == '/'`.
Post-decrement of the temporary returns the unmoved `end()` iterator, so the
expression reads the string's terminating NUL character, and the comparison
with `'/'` never holds.  The branch is therefore embedded as the comparison
`nul == '/'`, which is identically false. -/
def validName (name : Str) : Bool :=
  if name == rootContainer || name == portoRootContainer then true
  else if name.length == 0 || decide (name.length > 128) then false
  else if !noDoubleSlash name then false
  else if name.head? == some '/' then false
  else if (Char.ofNat 0) == '/' then false
  else name.all validNameChar

/-- The claim's validity rule, stated literally: besides the two special
names, a name is valid iff it is at most 200 characters long, consists of
non-empty slash-delimited segments over the allowed character set, contains
no `//`, and has no leading and no trailing `/`. -/
def claimValidName (name : Str) : Bool :=
  name == rootContainer || name == portoRootContainer ||
    (decide (1 ≤ name.length) && decide (name.length ≤ 200) &&
     name.all validNameChar && noDoubleSlash name &&
     !(name.head? == some '/') && !(name.getLast? == some '/'))

/-- Splitting a character list at every `'/'` (the segment view of a
container name). -/
def splitSlash : Str → List Str
  | [] => [[]]
  | c :: rest =>
    match splitSlash rest with
    | [] => [[]]
    | t :: ts => if c == '/' then [] :: t :: ts else (c :: t) :: ts

/-- The amended validity rule: at most 128 characters, non-empty name, all
characters in the allowed set, and when the name is split at `/` every
segment is non-empty except that the final segment may be empty (i.e. a
single trailing slash is accepted); the two special names are always valid. -/
def amendedValidName (name : Str) : Bool :=
  name == rootContainer || name == portoRootContainer ||
    (decide (1 ≤ name.length) && decide (name.length ≤ 128) &&
     name.all validNameChar &&
     (splitSlash name).dropLast.all (fun s => !s.isEmpty))

theorem splitSlash_ne_nil (s : Str) : splitSlash s ≠ [] := by
  cases s with
  | nil => simp [splitSlash]
  | cons c rest =>
    simp only [splitSlash]
    split
    · simp
    · split <;> simp

/-- Joining a segment list with `'/'` separators (left inverse of
`splitSlash`). -/
def renderComps : List Str → Str
  | [] => []
  | [c] => c
  | c :: rest => c ++ '/' :: renderComps rest

theorem renderComps_splitSlash (s : Str) : renderComps (splitSlash s) = s := by
  induction s with
  | nil => simp [splitSlash, renderComps]
  | cons c rest ih =>
    simp only [splitSlash]
    rcases h : splitSlash rest with _ | ⟨t, ts⟩
    · exact absurd h (splitSlash_ne_nil rest)
    · rw [h] at ih
      by_cases hc : c = '/'
      · simp only [hc, beq_self_eq_true, if_true, renderComps]
        rcases ts with _ | ⟨u, us⟩
        · simpa [renderComps] using ih
        · simpa [renderComps] using ih
      · simp only [beq_iff_eq, hc, if_false]
        rcases ts with _ | ⟨u, us⟩
        · simpa [renderComps] using ih
        · simp only [renderComps] at ih ⊢
          simp [ih]

theorem splitSlash_no_slash {s : Str} (h : '/' ∉ s) : splitSlash s = [s] := by
  induction s with
  | nil => simp [splitSlash]
  | cons c rest ih =>
    simp only [List.mem_cons, not_or] at h
    simp only [splitSlash, ih h.2, beq_iff_eq]
    rw [if_neg fun hc => h.1 hc.symm]

theorem splitSlash_mem_slash {s : Str} (h : '/' ∈ s) :
    2 ≤ (splitSlash s).length := by
  induction s with
  | nil => simp at h
  | cons c rest ih =>
    simp only [splitSlash]
    rcases hs : splitSlash rest with _ | ⟨t, ts⟩
    · exact absurd hs (splitSlash_ne_nil rest)
    · by_cases hc : c = '/'
      · simp [hc]
      · rcases List.mem_cons.mp h with h | h
        · exact absurd h.symm hc
        · have := ih h
          rw [hs] at this
          simp only [List.length_cons] at this
          simp only [beq_iff_eq, hc, if_false, List.length_cons]
          omega

theorem splitSlash_cons (c : Char) (rest : Str) :
    splitSlash (c :: rest) =
      match splitSlash rest with
      | [] => [[]]
      | t :: ts => if c == '/' then [] :: t :: ts else (c :: t) :: ts := rfl

theorem splitSlash_cons_eq (c : Char) {rest t : Str} {ts : List Str}
    (h : splitSlash rest = t :: ts) :
    splitSlash (c :: rest) = if c == '/' then [] :: t :: ts else (c :: t) :: ts := by
  rw [splitSlash_cons, h]

theorem isEmpty_false_of_ne_nil {t : Str} (h : t ≠ []) : t.isEmpty = false := by
  cases t with
  | nil => exact absurd rfl h
  | cons x xs => rfl

theorem splitSlash_parts_no_slash (s : Str) :
    ∀ t ∈ splitSlash s, '/' ∉ t := by
  induction s with
  | nil => intro t ht; simp [splitSlash] at ht; simp [ht]
  | cons c rest ih =>
    intro t ht
    rcases h : splitSlash rest with _ | ⟨t', ts'⟩
    · exact absurd h (splitSlash_ne_nil rest)
    · rw [splitSlash_cons_eq c h] at ht
      by_cases hc : c = '/'
      · rw [if_pos (by simpa using hc)] at ht
        rcases List.mem_cons.mp ht with ht | ht
        · simp [ht]
        · exact ih t (h ▸ ht)
      · rw [if_neg (by simpa using hc)] at ht
        rcases List.mem_cons.mp ht with ht | ht
        · subst ht
          intro hm
          rcases List.mem_cons.mp hm with hm | hm
          · exact hc hm.symm
          · exact ih t' (h ▸ List.mem_cons_self t' ts') hm
        · exact ih t (h ▸ List.mem_cons_of_mem t' ht)

theorem splitSlash_cons_head {c : Char} {rest t : Str} {ts : List Str}
    (h : splitSlash (c :: rest) = t :: ts) : t = [] ↔ c = '/' := by
  rcases hr : splitSlash rest with _ | ⟨t', ts'⟩
  · exact absurd hr (splitSlash_ne_nil rest)
  · rw [splitSlash_cons_eq c hr] at h
    by_cases hc : c = '/'
    · rw [if_pos (by simpa using hc)] at h
      simp only [List.cons.injEq] at h
      simp [h.1, hc]
    · rw [if_neg (by simpa using hc)] at h
      simp only [List.cons.injEq] at h
      simp [← h.1, hc]

/-- The interior-segment characterization of the double-slash scan: the scan
succeeds exactly when every segment other than the first and the last is
non-empty. -/
theorem noDoubleSlash_eq_tail_dropLast (s : Str) :
    noDoubleSlash s = ((splitSlash s).tail.dropLast).all (fun t => !t.isEmpty) := by
  induction s with
  | nil => simp [noDoubleSlash, splitSlash]
  | cons c rest ih =>
    cases rest with
    | nil =>
      by_cases hc : c = '/' <;>
        simp [noDoubleSlash, splitSlash, hc]
    | cons d r =>
      rcases h : splitSlash (d :: r) with _ | ⟨t, ts⟩
      · exact absurd h (splitSlash_ne_nil _)
      · rw [h] at ih
        have hhead : t = [] ↔ d = '/' := splitSlash_cons_head h
        rw [splitSlash_cons_eq c h]
        by_cases hc : c = '/'
        · rw [if_pos (by simpa using hc)]
          simp only [List.tail_cons]
          cases ts with
          | nil =>
            have hd : d ≠ '/' := by
              intro hd
              have hm : '/' ∈ d :: r := by simp [hd]
              have h2 := splitSlash_mem_slash hm
              rw [h] at h2
              simp at h2
            have ih' : noDoubleSlash (d :: r) = true := by simpa using ih
            simp [noDoubleSlash, hc, hd, ih']
          | cons u us =>
            have hlast : (t :: u :: us).dropLast = t :: (u :: us).dropLast := rfl
            have ih' : noDoubleSlash (d :: r) =
                ((u :: us).dropLast).all (fun t => !t.isEmpty) := by simpa using ih
            rw [hlast]
            by_cases hd : d = '/'
            · simp [noDoubleSlash, hc, hd, hhead.mpr hd]
            · have htn : t ≠ [] := fun h' => hd (hhead.mp h')
              simp [noDoubleSlash, hc, hd, ih', isEmpty_false_of_ne_nil htn]
        · rw [if_neg (by simpa using hc)]
          simp only [List.tail_cons]
          have ih' : noDoubleSlash (d :: r) =
              (ts.dropLast).all (fun t => !t.isEmpty) := by simpa using ih
          simp [noDoubleSlash, hc, ih']

/-- The segment form of `ValidName`'s slash checks: the double-slash scan and
the leading-slash test together say exactly that all segments but the last
are non-empty. -/
theorem slash_checks_eq_segments (s : Str) :
    (noDoubleSlash s && !(s.head? == some '/')) =
      (splitSlash s).dropLast.all (fun t => !t.isEmpty) := by
  rcases h : splitSlash s with _ | ⟨t, ts⟩
  · exact absurd h (splitSlash_ne_nil s)
  · cases ts with
    | nil =>
      obtain ⟨rfl, hns⟩ : s = t ∧ '/' ∉ s := by
        have hr := renderComps_splitSlash s
        rw [h] at hr
        simp only [renderComps] at hr
        refine ⟨hr.symm, fun hm => ?_⟩
        have h2 := splitSlash_mem_slash hm
        rw [h] at h2
        simp at h2
      have hhd : ¬ s.head? = some '/' := by
        intro hh
        cases s with
        | nil => simp at hh
        | cons a as =>
          simp only [List.head?_cons, Option.some.injEq] at hh
          exact hns (by simp [hh])
      have hnd : noDoubleSlash s = true := by
        rw [noDoubleSlash_eq_tail_dropLast, h]
        simp
      simp [hnd, hhd, h]
    | cons u us =>
      have hlast : (t :: u :: us).dropLast = t :: (u :: us).dropLast := rfl
      have hne : s ≠ [] := by
        intro hs
        rw [hs] at h
        simp only [splitSlash] at h
        simp at h
      obtain ⟨a, as, rfl⟩ : ∃ a as, s = a :: as :=
        ⟨s.head (by simpa using hne), s.tail, (List.head_cons_tail _ _).symm⟩
      have hhead : t = [] ↔ a = '/' := splitSlash_cons_head h
      rw [noDoubleSlash_eq_tail_dropLast, h, hlast]
      simp only [List.tail_cons, List.head?_cons]
      by_cases ha : a = '/'
      · simp [ha, hhead.mpr ha]
      · have ht : t ≠ [] := fun h' => ha (hhead.mp h')
        simp [ha, isEmpty_false_of_ne_nil ht, Bool.and_comm]
/-- C1 (amended): `Create` treats a container name as valid iff it is one of
the special names `/` and `/porto`, or it is non-empty, at most 128 characters
long (not 200 as claimed), all its characters lie in `[A-Za-z0-9_/@:.\x2d]`,
and every slash-delimited segment is non-empty except that the final segment
may be empty — i.e. one trailing `/` is accepted, because the trailing-slash
test in the source never fires. -/
theorem c1_valid_name_amended (name : Str) :
    validName name = amendedValidName name := by
  unfold validName amendedValidName
  rw [← slash_checks_eq_segments]
  have hnul : ((Char.ofNat 0) == '/') = false := by decide
  by_cases h1 : name = rootContainer
  · simp [h1]
  · by_cases h2 : name = portoRootContainer
    · simp [h2]
    · have e1 : (name == rootContainer) = false := by simp [h1]
      have e2 : (name == portoRootContainer) = false := by simp [h2]
      rw [e1, e2, hnul]
      simp only [Bool.or_self, Bool.false_or, if_false]
      by_cases hlen0 : name.length = 0
      · have l0 : (name.length == 0) = true := by simp [hlen0]
        have l1 : decide (1 ≤ name.length) = false := by simp [hlen0]
        rw [l0, l1]
        simp
      · by_cases hlen : name.length ≤ 128
        · have l0 : (name.length == 0) = false := by simp [hlen0]
          have lg : decide (name.length > 128) = false := by
            simp; omega
          have l1 : decide (1 ≤ name.length) = true := by
            simp; omega
          have l2 : decide (name.length ≤ 128) = true := by simp [hlen]
          rw [l0, lg, l1, l2]
          by_cases hnd : noDoubleSlash name = true
          · rw [hnd]
            by_cases hh : name.head? = some '/'
            · have eh : (name.head? == some '/') = true := by simp [hh]
              rw [eh]
              simp
            · have eh : (name.head? == some '/') = false := by simp [hh]
              rw [eh]
              simp [Bool.and_comm]
          · have hnd2 : noDoubleSlash name = false := by simpa using hnd
            rw [hnd2]
            simp
        · have lg : decide (name.length > 128) = true := by
            simp; omega
          have l2 : decide (name.length ≤ 128) = false := by simp [hlen]
          rw [lg, l2]
          simp

set_option maxRecDepth 8000 in
/-- C1 counterexample to the claim as stated: the 129-character name
`aaa…a` satisfies every condition of the claim (length ≤ 200, allowed
characters, proper segments) yet `ValidName` rejects it, and the name `a/`
has a trailing slash — invalid per the claim — yet `ValidName` accepts it. -/
theorem c1_valid_name_counterexample :
    (validName (List.replicate 129 'a') = false ∧
      claimValidName (List.replicate 129 'a') = true) ∧
    (validName ("a/".toList) = true ∧ claimValidName ("a/".toList) = false) := by
  exact ⟨⟨by decide, by decide⟩, by decide, by decide⟩

/-! ## C2 — volume backend autodetection (`TVolume::Configure`) -/

/-- The backend autodetection chain from `TVolume::Configure`
(src/src/volume.cpp): executed only when the request carries no explicit
backend.  `haveQuota` is `TVolume::HaveQuota()` — a space or inode limit was
requested (accessor declared in the missing volume header; meaning taken
from the spec).  `nativeSup` and `overlaySup` are
`TVolumeNativeBackend::Supported()` and `TVolumeOverlayBackend::Supported()`,
and `hasLayers` is `Config->HasValue(V_LAYERS)`. -/
def chooseBackend (haveQuota nativeSup overlaySup hasLayers : Bool) : Str :=
  if haveQuota && !nativeSup then "loop".toList
  else if hasLayers && overlaySup then "overlay".toList
  else if nativeSup then "native".toList
  else "plain".toList

/-- The claim's backend rule, read clause by clause: the trailing "loop if a
quota was requested but native project quota is unsupported" clause is an
override (the preceding `overlay`/`native`/`plain` chain is already total),
so it applies whenever its condition holds. -/
def claimBackendRule (haveQuota nativeSup overlaySup hasLayers : Bool) : Str :=
  let chain :=
    if hasLayers && overlaySup then "overlay".toList
    else if nativeSup then "native".toList
    else "plain".toList
  if haveQuota && !nativeSup then "loop".toList else chain

/-- C2: when a CreateVolume request carries no explicit backend,
`TVolume::Configure` picks the backend exactly as the spec's rule dictates,
for every combination of (quota requested, native supported, overlay
supported, layers present): `loop` when a quota is requested but native
project quota is unsupported, else `overlay` when layers are present and
overlay is supported, else `native` when project quota is supported, else
`plain`. -/
theorem c2_backend_autodetect (haveQuota nativeSup overlaySup hasLayers : Bool) :
    chooseBackend haveQuota nativeSup overlaySup hasLayers =
      claimBackendRule haveQuota nativeSup overlaySup hasLayers := by
  cases haveQuota <;> cases nativeSup <;> cases overlaySup <;> cases hasLayers <;> rfl

/-! ## C10 — path normalization (`TPath::NormalPath`, src/src/util/path.cpp)

The source splits the path at `'/'` with `std::getline` and rebuilds a
normalized string in the local variable `path`.  The embedding mirrors the
loop body literally: `rfindSlash` is `path.rfind('/')`, `List.take k` is
`path.erase(k)`, `List.drop (k+1)` is the suffix compared by
`path.compare(last + 1, npos, "..")`, and `appendComponent` is the common
append tail of the loop.  `std::getline` produces no final empty token for a
trailing `'/'`; `splitSlash` produces one, but the loop skips empty
components, so the two token streams lead to identical results. -/

/-- `path.rfind('/')`: index of the last `'/'` in the accumulator, if any. -/
def rfindSlash : Str → Option Nat
  | [] => none
  | c :: rest =>
    match rfindSlash rest with
    | some i => some (i + 1)
    | none => if c == '/' then some 0 else none

/-- The append tail of the `NormalPath` loop:
`if (!path.empty() && path != "/") path += "/"; path += component`. -/
def appendComponent (path comp : Str) : Str :=
  (if path ≠ [] ∧ path ≠ ['/'] then path ++ ['/'] else path) ++ comp

/-- The `while (std::getline(ss, component, '/'))` loop body of
`TPath::NormalPath`, folded over the token list. -/
def normalLoop : Str → List Str → Str
  | path, [] => path
  | path, comp :: rest =>
    if comp = [] ∨ comp = ['.'] then normalLoop path rest
    else if comp = ['.', '.'] then
      match rfindSlash path with
      | none =>
        if path ≠ [] ∧ path ≠ ['.', '.'] then
          normalLoop [] rest
        else
          normalLoop (appendComponent path comp) rest
      | some last =>
        if path.drop (last + 1) ≠ ['.', '.'] then
          if last = 0 then normalLoop (path.take 1) rest
          else normalLoop (path.take last) rest
        else
          normalLoop (appendComponent path comp) rest
    else normalLoop (appendComponent path comp) rest

/-- `TPath::NormalPath` (src/src/util/path.cpp): returns the empty path for
an empty input, seeds the accumulator with `"/"` for absolute paths, folds
the loop over the slash-separated components, and maps an otherwise-empty
result to `"."`. -/
def normalPath (p : Str) : Str :=
  if p = [] then []
  else
    let start := if p.head? == some '/' then ['/'] else []
    let r := normalLoop start (splitSlash p)
    if r = [] then ['.'] else r

/-- Component-level mirror of one `NormalPath` loop iteration: skip empty and
`"."` components, pop (or, for relative paths, accumulate) on `".."`, append
otherwise. -/
def stepComp (ab : Bool) (acc : List Str) (comp : Str) : List Str :=
  if comp = [] ∨ comp = ['.'] then acc
  else if comp = ['.', '.'] then
    if ab then acc.dropLast
    else
      match acc.getLast? with
      | none => acc ++ [comp]
      | some g => if g = ['.', '.'] then acc ++ [comp] else acc.dropLast
  else acc ++ [comp]

/-- The string held by the loop variable `path` when the accumulated
components are `acc`: a leading `'/'` for absolute paths, components joined
by `'/'`. -/
def render : Bool → List Str → Str
  | true, acc => '/' :: renderComps acc
  | false, acc => renderComps acc

/-- Well-formedness of the component accumulator: components are non-empty
and slash-free, and an absolute path never accumulates `".."`. -/
def GoodAcc (ab : Bool) (acc : List Str) : Prop :=
  (∀ t ∈ acc, t ≠ [] ∧ '/' ∉ t) ∧ (ab = true → ∀ t ∈ acc, t ≠ ['.', '.'])

theorem renderComps_ne_nil {acc : List Str} (h : acc ≠ [])
    (h2 : ∀ t ∈ acc, t ≠ []) : renderComps acc ≠ [] := by
  cases acc with
  | nil => exact absurd rfl h
  | cons t ts =>
    cases ts with
    | nil =>
      simpa [renderComps] using h2 t (by simp)
    | cons u us =>
      have := h2 t (by simp)
      simp only [renderComps]
      intro hx
      rcases List.append_eq_nil.mp hx with ⟨h3, _⟩
      exact this h3

theorem renderComps_concat {acc : List Str} (c : Str) (h : acc ≠ []) :
    renderComps (acc ++ [c]) = renderComps acc ++ '/' :: c := by
  induction acc with
  | nil => exact absurd rfl h
  | cons t ts ih =>
    cases ts with
    | nil => simp [renderComps]
    | cons u us =>
      have ihh := ih (by simp)
      simp only [List.cons_append]
      rw [show renderComps (t :: u :: (us ++ [c])) =
            t ++ '/' :: renderComps (u :: (us ++ [c])) from rfl]
      rw [show renderComps (u :: (us ++ [c])) = renderComps ((u :: us) ++ [c]) by
            simp]
      rw [ihh]
      rw [show renderComps (t :: u :: us) = t ++ '/' :: renderComps (u :: us) from rfl]
      simp [List.append_assoc]

theorem rfindSlash_no_slash {s : Str} (h : '/' ∉ s) : rfindSlash s = none := by
  induction s with
  | nil => rfl
  | cons c rest ih =>
    simp only [List.mem_cons, not_or] at h
    simp only [rfindSlash, ih h.2]
    rw [if_neg (by simpa using fun hc => h.1 hc.symm)]

theorem rfindSlash_append_slash {c : Str} (xs : Str) (h : '/' ∉ c) :
    rfindSlash (xs ++ '/' :: c) = some xs.length := by
  induction xs with
  | nil => simp [rfindSlash, rfindSlash_no_slash h]
  | cons x xs ih =>
    have he : rfindSlash ((x :: xs) ++ '/' :: c) =
        match rfindSlash (xs ++ '/' :: c) with
        | some i => some (i + 1)
        | none => if x == '/' then some 0 else none := rfl
    rw [he, ih]
    rfl

theorem drop_append_slash (xs c : Str) :
    (xs ++ '/' :: c).drop (xs.length + 1) = c := by
  induction xs with
  | nil => rfl
  | cons x xs ih =>
    simp only [List.cons_append, List.length_cons, List.drop_succ_cons]
    exact ih


theorem renderComps_ne_slash {acc : List Str}
    (h2 : ∀ t ∈ acc, t ≠ [] ∧ '/' ∉ t) : renderComps acc ≠ ['/'] := by
  cases acc with
  | nil => simp [renderComps]
  | cons t ts =>
    cases ts with
    | nil =>
      simp only [renderComps]
      intro hx
      exact (h2 t (by simp)).2 (by simp [hx])
    | cons u us =>
      simp only [renderComps]
      intro hx
      have hlen := congrArg List.length hx
      simp only [List.length_append, List.length_cons, List.length_nil] at hlen
      have ht := (h2 t (by simp)).1
      have : t.length ≠ 0 := fun h0 => ht (List.length_eq_zero.mp h0)
      omega

theorem appendComponent_render {ab : Bool} {acc : List Str} (c : Str)
    (hg : ∀ t ∈ acc, t ≠ [] ∧ '/' ∉ t) :
    appendComponent (render ab acc) c = render ab (acc ++ [c]) := by
  rcases List.eq_nil_or_concat acc with rfl | ⟨pre, g, h'⟩
  · cases ab <;> simp [appendComponent, render, renderComps]
  · rw [List.concat_eq_append] at h'
    subst h'
    have hne : pre ++ [g] ≠ [] := by simp
    have hrne : renderComps (pre ++ [g]) ≠ [] :=
      renderComps_ne_nil hne (fun t ht => (hg t ht).1)
    have hrsl : renderComps (pre ++ [g]) ≠ ['/'] := renderComps_ne_slash hg
    have hconc : renderComps ((pre ++ [g]) ++ [c]) =
        renderComps (pre ++ [g]) ++ '/' :: c := renderComps_concat c hne
    cases ab with
    | false =>
      simp only [render]
      rw [appendComponent, if_pos ⟨hrne, hrsl⟩, hconc, List.append_assoc]
      rfl
    | true =>
      simp only [render]
      rw [appendComponent,
        if_pos ⟨by simp, fun hx => hrne (by simpa using hx)⟩, hconc]
      simp [List.append_assoc]

theorem normalLoop_cons (path comp : Str) (rest : List Str) :
    normalLoop path (comp :: rest) =
      if comp = [] ∨ comp = ['.'] then normalLoop path rest
      else if comp = ['.', '.'] then
        match rfindSlash path with
        | none =>
          if path ≠ [] ∧ path ≠ ['.', '.'] then normalLoop [] rest
          else normalLoop (appendComponent path comp) rest
        | some last =>
          if path.drop (last + 1) ≠ ['.', '.'] then
            if last = 0 then normalLoop (path.take 1) rest
            else normalLoop (path.take last) rest
          else normalLoop (appendComponent path comp) rest
      else normalLoop (appendComponent path comp) rest := rfl

theorem normalLoop_cons_skip {comp : Str} (path : Str) (rest : List Str)
    (h : comp = [] ∨ comp = ['.']) :
    normalLoop path (comp :: rest) = normalLoop path rest := by
  rw [normalLoop_cons, if_pos h]

theorem normalLoop_cons_dotdot_none {path : Str} (rest : List Str)
    (h : rfindSlash path = none) :
    normalLoop path (['.', '.'] :: rest) =
      if path ≠ [] ∧ path ≠ ['.', '.'] then normalLoop [] rest
      else normalLoop (appendComponent path ['.', '.']) rest := by
  rw [normalLoop_cons, if_neg (by decide), if_pos rfl, h]

theorem normalLoop_cons_dotdot_some {path : Str} {last : Nat} (rest : List Str)
    (h : rfindSlash path = some last) :
    normalLoop path (['.', '.'] :: rest) =
      if path.drop (last + 1) ≠ ['.', '.'] then
        if last = 0 then normalLoop (path.take 1) rest
        else normalLoop (path.take last) rest
      else normalLoop (appendComponent path ['.', '.']) rest := by
  rw [normalLoop_cons, if_neg (by decide), if_pos rfl, h]

theorem normalLoop_cons_append {comp : Str} (path : Str) (rest : List Str)
    (h1 : ¬(comp = [] ∨ comp = ['.'])) (h2 : comp ≠ ['.', '.']) :
    normalLoop path (comp :: rest) =
      normalLoop (appendComponent path comp) rest := by
  rw [normalLoop_cons, if_neg h1, if_neg h2]

theorem stepComp_cons (ab : Bool) (acc : List Str) (comp : Str) :
    stepComp ab acc comp =
      if comp = [] ∨ comp = ['.'] then acc
      else if comp = ['.', '.'] then
        if ab then acc.dropLast
        else
          match acc.getLast? with
          | none => acc ++ [comp]
          | some g => if g = ['.', '.'] then acc ++ [comp] else acc.dropLast
      else acc ++ [comp] := rfl

theorem stepComp_skip_eq (ab : Bool) (acc : List Str) {comp : Str}
    (h : comp = [] ∨ comp = ['.']) : stepComp ab acc comp = acc := by
  rw [stepComp_cons, if_pos h]

theorem stepComp_dotdot_abs_eq (acc : List Str) :
    stepComp true acc ['.', '.'] = acc.dropLast := by
  rw [stepComp_cons, if_neg (by decide), if_pos rfl, if_pos rfl]

theorem stepComp_dotdot_rel_none_eq (acc : List Str) (h : acc.getLast? = none) :
    stepComp false acc ['.', '.'] = acc ++ [['.', '.']] := by
  rw [stepComp_cons, if_neg (by decide), if_pos rfl, if_neg (by simp), h]

theorem stepComp_dotdot_rel_some_eq (acc : List Str) {g : Str}
    (h : acc.getLast? = some g) :
    stepComp false acc ['.', '.'] =
      if g = ['.', '.'] then acc ++ [['.', '.']] else acc.dropLast := by
  rw [stepComp_cons, if_neg (by decide), if_pos rfl, if_neg (by simp), h]

theorem stepComp_append_eq (ab : Bool) (acc : List Str) {comp : Str}
    (h1 : ¬(comp = [] ∨ comp = ['.'])) (h2 : comp ≠ ['.', '.']) :
    stepComp ab acc comp = acc ++ [comp] := by
  rw [stepComp_cons, if_neg h1, if_neg h2]

theorem goodAcc_nil (ab : Bool) : GoodAcc ab [] := by
  constructor <;> simp

theorem GoodAcc.dropLastAcc {ab : Bool} {acc : List Str} (h : GoodAcc ab acc) :
    GoodAcc ab acc.dropLast := by
  refine ⟨fun t ht => h.1 t ?_, fun hab t ht => h.2 hab t ?_⟩ <;>
    exact List.dropLast_subset _ ht

theorem GoodAcc.appendAcc {ab : Bool} {acc : List Str} {t0 : Str}
    (h : GoodAcc ab acc) (h0 : t0 ≠ []) (h1 : '/' ∉ t0)
    (h2 : ab = true → t0 ≠ ['.', '.']) : GoodAcc ab (acc ++ [t0]) := by
  constructor
  · intro t ht
    rcases List.mem_append.mp ht with ht | ht
    · exact h.1 t ht
    · simp only [List.mem_singleton] at ht
      subst ht
      exact ⟨h0, h1⟩
  · intro hab t ht
    rcases List.mem_append.mp ht with ht | ht
    · exact h.2 hab t ht
    · simp only [List.mem_singleton] at ht
      subst ht
      exact h2 hab

/-- Simulation of the string-level `NormalPath` loop by the component-level
step function: starting from a well-formed accumulator, the loop on the
rendered string computes the render of the folded accumulator. -/
theorem normalLoop_render (ab : Bool) (comps : List Str) :
    ∀ acc, (∀ t ∈ comps, '/' ∉ t) → GoodAcc ab acc →
      normalLoop (render ab acc) comps =
        render ab (List.foldl (stepComp ab) acc comps) := by
  induction comps with
  | nil => intro acc _ _; rfl
  | cons comp rest ih =>
    intro acc hc hacc
    have hcomp : '/' ∉ comp := hc comp (by simp)
    have hrest : ∀ t ∈ rest, '/' ∉ t := fun t ht => hc t (List.mem_cons_of_mem _ ht)
    have hfold : List.foldl (stepComp ab) acc (comp :: rest) =
        List.foldl (stepComp ab) (stepComp ab acc comp) rest := rfl
    rw [hfold]
    by_cases h1 : comp = [] ∨ comp = ['.']
    · rw [normalLoop_cons_skip _ _ h1, stepComp_skip_eq ab acc h1]
      exact ih acc hrest hacc
    · by_cases h2 : comp = ['.', '.']
      · subst h2
        rcases List.eq_nil_or_concat acc with rfl | ⟨pre, g, h'⟩
        · cases ab with
          | false =>
            have hfind : rfindSlash (render false []) = none := rfl
            rw [normalLoop_cons_dotdot_none _ hfind]
            rw [if_neg (by simp [render, renderComps])]
            rw [appendComponent_render _ (by simp)]
            rw [stepComp_dotdot_rel_none_eq [] rfl]
            exact ih _ hrest
              ((goodAcc_nil false).appendAcc (by simp) (by simp) (by simp))
          | true =>
            have hfind : rfindSlash (render true []) = some 0 := rfl
            rw [normalLoop_cons_dotdot_some _ hfind]
            rw [if_pos (by decide), if_pos rfl]
            rw [show (render true []).take 1 = render true [] from rfl]
            rw [stepComp_dotdot_abs_eq, show ([] : List Str).dropLast = [] from rfl]
            exact ih _ hrest hacc
        · rw [List.concat_eq_append] at h'
          subst h'
          have hmemg : g ∈ pre ++ [g] := by simp
          have hgood := hacc.1 g hmemg
          by_cases hpre : pre = []
          · subst hpre
            simp only [List.nil_append] at *
            cases ab with
            | true =>
              have hgnd : g ≠ ['.', '.'] := hacc.2 rfl g (by simp)
              have hrg : render true [g] = [] ++ '/' :: g := by
                simp [render, renderComps]
              have hfind : rfindSlash (render true [g]) = some 0 := by
                rw [hrg]
                simpa using rfindSlash_append_slash [] hgood.2
              rw [normalLoop_cons_dotdot_some _ hfind]
              have hdrop : (render true [g]).drop 1 = g := by
                rw [hrg]
                exact drop_append_slash [] g
              rw [if_pos (by rw [hdrop]; exact hgnd), if_pos rfl]
              rw [show (render true [g]).take 1 = render true [] by
                    simp [render, renderComps]]
              rw [stepComp_dotdot_abs_eq, show ([g] : List Str).dropLast = [] from rfl]
              exact ih _ hrest (goodAcc_nil true)
            | false =>
              have hrg : render false [g] = g := by simp [render, renderComps]
              have hfind : rfindSlash (render false [g]) = none := by
                rw [hrg]; exact rfindSlash_no_slash hgood.2
              rw [normalLoop_cons_dotdot_none _ hfind]
              by_cases hg : g = ['.', '.']
              · rw [if_neg (by rw [hrg, hg]; simp)]
                rw [appendComponent_render _ hacc.1]
                rw [stepComp_dotdot_rel_some_eq _ (show [g].getLast? = some g from rfl),
                  if_pos hg]
                exact ih _ hrest (hacc.appendAcc (by simp) (by simp) (by simp))
              · rw [if_pos (by rw [hrg]; exact ⟨hgood.1, hg⟩)]
                rw [stepComp_dotdot_rel_some_eq _ (show [g].getLast? = some g from rfl),
                  if_neg hg, show ([g] : List Str).dropLast = [] from rfl]
                exact ih [] hrest (goodAcc_nil false)
          · have hconc : renderComps (pre ++ [g]) = renderComps pre ++ '/' :: g :=
              renderComps_concat g hpre
            have hpath : render ab (pre ++ [g]) = render ab pre ++ '/' :: g := by
              cases ab <;> simp [render, hconc]
            have hfind : rfindSlash (render ab (pre ++ [g])) =
                some (render ab pre).length := by
              rw [hpath]
              exact rfindSlash_append_slash _ hgood.2
            have hdrop : (render ab (pre ++ [g])).drop ((render ab pre).length + 1) = g := by
              rw [hpath]
              exact drop_append_slash _ g
            have htake : (render ab (pre ++ [g])).take (render ab pre).length =
                render ab pre := by
              rw [hpath]
              exact List.take_left _ _
            have hlast : (pre ++ [g]).getLast? = some g := by
              simp
            have hpreGood : GoodAcc ab pre :=
              ⟨fun t ht => hacc.1 t (by simp [ht]),
               fun hab t ht => hacc.2 hab t (by simp [ht])⟩
            have hlastne : (render ab pre).length ≠ 0 := by
              cases ab with
              | true => simp [render]
              | false =>
                have := renderComps_ne_nil hpre (fun t ht => (hacc.1 t (by simp [ht])).1)
                simp only [render]
                intro h0
                exact this (List.length_eq_zero.mp h0)
            rw [normalLoop_cons_dotdot_some _ hfind]
            cases ab with
            | true =>
              have hgnd : g ≠ ['.', '.'] := hacc.2 rfl g hmemg
              rw [if_pos (by rw [hdrop]; exact hgnd), if_neg hlastne, htake]
              rw [stepComp_dotdot_abs_eq, List.dropLast_concat]
              exact ih _ hrest hpreGood
            | false =>
              by_cases hg : g = ['.', '.']
              · rw [if_neg (by rw [hdrop, hg]; simp)]
                rw [appendComponent_render _ hacc.1]
                rw [stepComp_dotdot_rel_some_eq _ hlast, if_pos hg]
                exact ih _ hrest (hacc.appendAcc (by simp) (by simp) (by simp))
              · rw [if_pos (by rw [hdrop]; exact hg), if_neg hlastne, htake]
                rw [stepComp_dotdot_rel_some_eq _ hlast, if_neg hg, List.dropLast_concat]
                exact ih _ hrest hpreGood
      · rw [normalLoop_cons_append _ _ h1 h2]
        rw [appendComponent_render _ hacc.1]
        rw [stepComp_append_eq ab acc h1 h2]
        have hcne : comp ≠ [] := fun hx => h1 (Or.inl hx)
        exact ih _ hrest (hacc.appendAcc hcne hcomp (fun _ => h2))

/-- The `".."` components of a relative normal form are all at the front. -/
def DotsLeading (acc : List Str) : Prop :=
  ∃ ds gs, acc = ds ++ gs ∧ (∀ t ∈ ds, t = ['.', '.']) ∧ (∀ t ∈ gs, t ≠ ['.', '.'])

theorem dotsLeading_nil : DotsLeading [] := ⟨[], [], by simp, by simp, by simp⟩

theorem getLast?_isSome_of_ne_nil {α : Type} {l : List α} (h : l ≠ []) :
    ∃ a, l.getLast? = some a := by
  cases l with
  | nil => exact absurd rfl h
  | cons x xs => exact ⟨(x :: xs).getLast (by simp), List.getLast?_eq_getLast _ _⟩

theorem getLast?_mem_self {α : Type} : ∀ {l : List α} {a : α},
    l.getLast? = some a → a ∈ l := by
  intro l
  induction l with
  | nil => intro a h; cases h
  | cons x xs ih =>
    intro a h
    cases xs with
    | nil =>
      simp only [List.getLast?_singleton, Option.some.injEq] at h
      simp [h]
    | cons y ys =>
      rw [List.getLast?_cons_cons] at h
      exact List.mem_cons_of_mem _ (ih h)

theorem getLast?_append_right {α : Type} {l₁ l₂ : List α} (h : l₂ ≠ []) :
    (l₁ ++ l₂).getLast? = l₂.getLast? := by
  obtain ⟨a, ha⟩ := getLast?_isSome_of_ne_nil h
  rw [List.getLast?_append, ha]
  rfl

theorem DotsLeading.all_dots {acc : List Str} (h : DotsLeading acc)
    (hg : acc.getLast? = some ['.', '.']) : ∀ t ∈ acc, t = ['.', '.'] := by
  obtain ⟨ds, gs, rfl, hds, hgs⟩ := h
  cases gs with
  | nil =>
    intro t ht
    exact hds t (by simpa using ht)
  | cons g0 gs0 =>
    exfalso
    rw [getLast?_append_right (by simp)] at hg
    exact hgs _ (getLast?_mem_self hg) rfl

theorem DotsLeading.append_dots {acc : List Str} (_ : DotsLeading acc)
    (hall : ∀ t ∈ acc, t = ['.', '.']) : DotsLeading (acc ++ [['.', '.']]) := by
  refine ⟨acc ++ [['.', '.']], [], by simp, ?_, by simp⟩
  intro t ht
  rcases List.mem_append.mp ht with ht | ht
  · exact hall t ht
  · simpa using ht

theorem DotsLeading.append_good {acc : List Str} (h : DotsLeading acc) {c : Str}
    (hc : c ≠ ['.', '.']) : DotsLeading (acc ++ [c]) := by
  obtain ⟨ds, gs, rfl, hds, hgs⟩ := h
  refine ⟨ds, gs ++ [c], by simp, hds, ?_⟩
  intro t ht
  rcases List.mem_append.mp ht with ht | ht
  · exact hgs t ht
  · simp only [List.mem_singleton] at ht
    subst ht
    exact hc

theorem DotsLeading.dropLast_good {acc : List Str} (h : DotsLeading acc)
    {g : Str} (hg : acc.getLast? = some g) (hgn : g ≠ ['.', '.']) :
    DotsLeading acc.dropLast := by
  obtain ⟨ds, gs, rfl, hds, hgs⟩ := h
  cases gs with
  | nil =>
    cases ds with
    | nil => simpa using dotsLeading_nil
    | cons d0 ds0 =>
      exfalso
      rw [List.append_nil] at hg
      exact hgn (hds g (getLast?_mem_self hg))
  | cons g0 gs0 =>
    rw [List.dropLast_append_of_ne_nil _ (by simp)]
    refine ⟨ds, (g0 :: gs0).dropLast, rfl, hds, ?_⟩
    intro t ht
    exact hgs t (List.dropLast_subset _ ht)

/-- The full invariant of the accumulator reached from an empty start: the
components are non-empty, slash-free, never `"."`, absolute paths hold no
`".."`, and relative paths keep all `".."` components at the front. -/
def NormAcc (ab : Bool) (acc : List Str) : Prop :=
  GoodAcc ab acc ∧ (∀ t ∈ acc, t ≠ ['.']) ∧ (ab = false → DotsLeading acc)

theorem normAcc_nil (ab : Bool) : NormAcc ab [] :=
  ⟨goodAcc_nil ab, by simp, fun _ => dotsLeading_nil⟩

theorem stepComp_normAcc {ab : Bool} {acc : List Str} {comp : Str}
    (h : NormAcc ab acc) (hcomp : '/' ∉ comp) :
    NormAcc ab (stepComp ab acc comp) := by
  obtain ⟨hg, hdot, hlead⟩ := h
  by_cases h1 : comp = [] ∨ comp = ['.']
  · rw [stepComp_skip_eq ab acc h1]
    exact ⟨hg, hdot, hlead⟩
  · by_cases h2 : comp = ['.', '.']
    · subst h2
      cases ab with
      | true =>
        rw [stepComp_dotdot_abs_eq]
        refine ⟨hg.dropLastAcc, fun t ht => hdot t (List.dropLast_subset _ ht),
          by simp⟩
      | false =>
        rcases hlastc : acc.getLast? with _ | g
        · rw [stepComp_dotdot_rel_none_eq _ hlastc]
          have hemp : acc = [] := by
            cases acc with
            | nil => rfl
            | cons a as =>
              obtain ⟨x, hx⟩ := getLast?_isSome_of_ne_nil (l := a :: as) (by simp)
              rw [hx] at hlastc
              cases hlastc
          subst hemp
          exact ⟨(goodAcc_nil false).appendAcc (by simp) (by simp) (by simp),
            by simp, fun _ => ⟨[['.', '.']], [], by simp, by simp, by simp⟩⟩
        · rw [stepComp_dotdot_rel_some_eq _ hlastc]
          by_cases hgd : g = ['.', '.']
          · rw [if_pos hgd]
            have hall := (hlead rfl).all_dots (hgd ▸ hlastc)
            refine ⟨hg.appendAcc (by simp) (by simp) (by simp), ?_, ?_⟩
            · intro t ht
              rcases List.mem_append.mp ht with ht | ht
              · exact hdot t ht
              · simp only [List.mem_singleton] at ht
                subst ht
                simp
            · exact fun _ => (hlead rfl).append_dots hall
          · rw [if_neg hgd]
            exact ⟨hg.dropLastAcc,
              fun t ht => hdot t (List.dropLast_subset _ ht),
              fun _ => (hlead rfl).dropLast_good hlastc hgd⟩
    · rw [stepComp_append_eq ab acc h1 h2]
      have hcne : comp ≠ [] := fun hx => h1 (Or.inl hx)
      have hcdot : comp ≠ ['.'] := fun hx => h1 (Or.inr hx)
      refine ⟨hg.appendAcc hcne hcomp (fun _ => h2), ?_, ?_⟩
      · intro t ht
        rcases List.mem_append.mp ht with ht | ht
        · exact hdot t ht
        · simp only [List.mem_singleton] at ht
          exact ht ▸ hcdot
      · exact fun hab => (hlead hab).append_good h2

theorem foldl_stepComp_normAcc (ab : Bool) (comps : List Str) :
    ∀ acc, (∀ t ∈ comps, '/' ∉ t) → NormAcc ab acc →
      NormAcc ab (List.foldl (stepComp ab) acc comps) := by
  induction comps with
  | nil => intro acc _ h; exact h
  | cons comp rest ih =>
    intro acc hc h
    exact ih _ (fun t ht => hc t (List.mem_cons_of_mem _ ht))
      (stepComp_normAcc h (hc comp (by simp)))

theorem splitSlash_append_slashfree {t : Str} (z : Str) (h : '/' ∉ t) :
    splitSlash (t ++ '/' :: z) = t :: splitSlash z := by
  induction t with
  | nil =>
    rcases hz : splitSlash z with _ | ⟨w, ws⟩
    · exact absurd hz (splitSlash_ne_nil z)
    · rw [List.nil_append, splitSlash_cons_eq '/' hz, if_pos (by decide), ← hz]
  | cons c t' ih =>
    simp only [List.mem_cons, not_or] at h
    have ih' := ih h.2
    rw [List.cons_append, splitSlash_cons_eq c ih',
      if_neg (by simpa using fun hc => h.1 hc.symm)]

theorem splitSlash_renderComps {acc : List Str} (hne : acc ≠ [])
    (hsf : ∀ t ∈ acc, '/' ∉ t) : splitSlash (renderComps acc) = acc := by
  induction acc with
  | nil => exact absurd rfl hne
  | cons t ts ih =>
    cases ts with
    | nil =>
      simp only [renderComps]
      exact splitSlash_no_slash (hsf t (by simp))
    | cons u us =>
      rw [show renderComps (t :: u :: us) = t ++ '/' :: renderComps (u :: us) from rfl,
        splitSlash_append_slashfree _ (hsf t (by simp)),
        ih (by simp) (fun x hx => hsf x (List.mem_cons_of_mem _ hx))]

theorem foldl_stepComp_appendAll (ab : Bool) (comps : List Str)
    (h : ∀ t ∈ comps, ¬(t = [] ∨ t = ['.']) ∧ t ≠ ['.', '.']) :
    ∀ acc, List.foldl (stepComp ab) acc comps = acc ++ comps := by
  induction comps with
  | nil => intro acc; simp
  | cons c cs ih =>
    intro acc
    have hc := h c (by simp)
    have hcs : ∀ t ∈ cs, ¬(t = [] ∨ t = ['.']) ∧ t ≠ ['.', '.'] :=
      fun t ht => h t (List.mem_cons_of_mem _ ht)
    rw [show List.foldl (stepComp ab) acc (c :: cs) =
          List.foldl (stepComp ab) (stepComp ab acc c) cs from rfl,
      stepComp_append_eq ab acc hc.1 hc.2, ih hcs]
    simp

theorem foldl_stepComp_dots (ds : List Str) (hds : ∀ t ∈ ds, t = ['.', '.']) :
    ∀ acc, (∀ t ∈ acc, t = ['.', '.']) →
      List.foldl (stepComp false) acc ds = acc ++ ds := by
  induction ds with
  | nil => intro acc _; simp
  | cons d ds' ih =>
    intro acc hacc
    have hd : d = ['.', '.'] := hds d (by simp)
    subst hd
    have hstep : stepComp false acc ['.', '.'] = acc ++ [['.', '.']] := by
      rcases hlast : acc.getLast? with _ | g
      · exact stepComp_dotdot_rel_none_eq _ hlast
      · rw [stepComp_dotdot_rel_some_eq _ hlast,
          if_pos (hacc g (getLast?_mem_self hlast))]
    rw [show List.foldl (stepComp false) acc (['.', '.'] :: ds') =
          List.foldl (stepComp false) (stepComp false acc ['.', '.']) ds' from rfl,
      hstep,
      ih (fun t ht => hds t (List.mem_cons_of_mem _ ht)) _ ?_]
    · simp
    · intro t ht
      rcases List.mem_append.mp ht with ht | ht
      · exact hacc t ht
      · simpa using ht

theorem normalPath_eq_render (p : Str) (hp : p ≠ []) :
    normalPath p =
      (if render (p.head? == some '/')
            (List.foldl (stepComp (p.head? == some '/')) [] (splitSlash p)) = []
       then ['.']
       else render (p.head? == some '/')
            (List.foldl (stepComp (p.head? == some '/')) [] (splitSlash p))) := by
  have hstart : (if p.head? == some '/' then ['/'] else []) =
      render (p.head? == some '/') [] := by
    cases hh : (p.head? == some '/') <;> simp [render, renderComps]
  simp only [normalPath, if_neg hp, hstart,
    normalLoop_render (p.head? == some '/') (splitSlash p) []
      (splitSlash_parts_no_slash p) (goodAcc_nil _)]

theorem head?_renderComps {acc : List Str} {t0 : Str} {ts : List Str}
    (hacc : acc = t0 :: ts) (h0 : t0 ≠ []) :
    (renderComps acc).head? = t0.head? := by
  subst hacc
  cases ts with
  | nil => rfl
  | cons u us =>
    rw [show renderComps (t0 :: u :: us) = t0 ++ '/' :: renderComps (u :: us) from rfl]
    cases t0 with
    | nil => exact absurd rfl h0
    | cons c t0' => rfl

/-- `NormalPath` is the identity on already-normalized renders. -/
theorem normalPath_of_normAcc (ab : Bool) (acc : List Str)
    (h : NormAcc ab acc) (hrne : render ab acc ≠ []) :
    normalPath (render ab acc) = render ab acc := by
  obtain ⟨hg, hdot, hlead⟩ := h
  cases ab with
  | true =>
    rcases List.eq_nil_or_concat acc with rfl | ⟨pre, g, h'⟩
    · rw [show render true [] = ['/'] from rfl]
      decide
    · rw [List.concat_eq_append] at h'
      subst h'
      have hane : (pre ++ [g] : List Str) ≠ [] := by simp
      have hr : render true (pre ++ [g]) = '/' :: renderComps (pre ++ [g]) := rfl
      have hpne : render true (pre ++ [g]) ≠ [] := by rw [hr]; simp
      have hab : ((render true (pre ++ [g])).head? == some '/') = true := by
        rw [hr]; simp
      have hsplit : splitSlash (render true (pre ++ [g])) = [] :: (pre ++ [g]) := by
        rcases hz : splitSlash (renderComps (pre ++ [g])) with _ | ⟨w, ws⟩
        · exact absurd hz (splitSlash_ne_nil _)
        · rw [hr, splitSlash_cons_eq '/' hz, if_pos (by decide), ← hz,
            splitSlash_renderComps hane (fun t ht => (hg.1 t ht).2)]
      have hfold : List.foldl (stepComp true) [] (splitSlash (render true (pre ++ [g]))) =
          pre ++ [g] := by
        rw [hsplit,
          show List.foldl (stepComp true) [] ([] :: (pre ++ [g])) =
            List.foldl (stepComp true) (stepComp true [] []) (pre ++ [g]) from rfl,
          stepComp_skip_eq true [] (Or.inl rfl),
          foldl_stepComp_appendAll true _ ?_ []]
        · simp
        · intro t ht
          exact ⟨fun hx => hx.elim (fun hx => (hg.1 t ht).1 hx)
              (fun hx => hdot t ht hx),
            hg.2 rfl t ht⟩
      rw [normalPath_eq_render _ hpne, hab, hfold, if_neg hpne]
  | false =>
    have hane : acc ≠ [] := by
      intro hx
      subst hx
      exact hrne rfl
    obtain ⟨t0, ts, rfl⟩ : ∃ t0 ts, acc = t0 :: ts :=
      ⟨acc.head (by simpa using hane), acc.tail, (List.head_cons_tail _ _).symm⟩
    have ht0 := hg.1 t0 (by simp)
    have hr : render false (t0 :: ts) = renderComps (t0 :: ts) := rfl
    have hpne : render false (t0 :: ts) ≠ [] := hrne
    have hab : ((render false (t0 :: ts)).head? == some '/') = false := by
      rw [hr, head?_renderComps rfl ht0.1]
      obtain ⟨c, t0', rfl⟩ : ∃ c t0', t0 = c :: t0' :=
        ⟨t0.head (by simpa using ht0.1), t0.tail, (List.head_cons_tail _ _).symm⟩
      have hcne : c ≠ '/' := fun hx => ht0.2 (by simp [hx])
      simpa using hcne
    have hsplit : splitSlash (render false (t0 :: ts)) = t0 :: ts := by
      rw [hr]
      exact splitSlash_renderComps hane (fun t ht => (hg.1 t ht).2)
    have hfold : List.foldl (stepComp false) [] (splitSlash (render false (t0 :: ts))) =
        t0 :: ts := by
      rw [hsplit]
      obtain ⟨ds, gs, hdg, hds, hgs⟩ := hlead rfl
      rw [hdg, List.foldl_append,
        foldl_stepComp_dots ds hds [] (by simp),
        List.nil_append,
        foldl_stepComp_appendAll false gs ?_ ds]
      · intro t ht
        have hmem : t ∈ t0 :: ts := by rw [hdg]; exact List.mem_append.mpr (Or.inr ht)
        exact ⟨fun hx => hx.elim (fun hx => (hg.1 t hmem).1 hx)
            (fun hx => hdot t hmem hx),
          hgs t ht⟩
    rw [normalPath_eq_render _ hpne, hab, hfold, if_neg hpne]

theorem normalPath_result (p : Str) (hp : p ≠ []) :
    normalPath p = ['.'] ∨
      ∃ ab acc, NormAcc ab acc ∧ render ab acc ≠ [] ∧
        normalPath p = render ab acc ∧ ab = (p.head? == some '/') := by
  have hN : NormAcc (p.head? == some '/')
      (List.foldl (stepComp (p.head? == some '/')) [] (splitSlash p)) :=
    foldl_stepComp_normAcc _ (splitSlash p) []
      (splitSlash_parts_no_slash p) (normAcc_nil _)
  have heq := normalPath_eq_render p hp
  by_cases hre : render (p.head? == some '/')
      (List.foldl (stepComp (p.head? == some '/')) [] (splitSlash p)) = []
  · left
    rw [heq, if_pos hre]
  · right
    exact ⟨_, _, hN, hre, by rw [heq, if_neg hre], rfl⟩

/-- C10: path normalization is total and idempotent: an empty input maps to
the empty path; a non-empty input maps either to `"."` (when everything
cancels) or to a rendered component list whose components are non-empty,
slash-free and never `"."`, where an absolute result contains no `".."`
components at all and a relative result keeps its `".."` components only as
a leading run; and `NormalPath` applied to its own output returns it
unchanged. -/
theorem c10_normal_path (p : Str) :
    (p = [] → normalPath p = []) ∧
    normalPath (normalPath p) = normalPath p ∧
    (p ≠ [] →
      normalPath p = ['.'] ∨
      ∃ acc, (∀ t ∈ acc, t ≠ [] ∧ '/' ∉ t ∧ t ≠ ['.']) ∧
        ((normalPath p = render true acc ∧ ∀ t ∈ acc, t ≠ ['.', '.']) ∨
         (normalPath p = render false acc ∧ DotsLeading acc))) := by
  by_cases hp : p = []
  · subst hp
    exact ⟨fun _ => rfl, rfl, fun hne => absurd rfl hne⟩
  · refine ⟨fun hx => absurd hx hp, ?_, fun _ => ?_⟩
    · rcases normalPath_result p hp with hdot | ⟨ab, acc, hN, hre, hr, _⟩
      · rw [hdot]
        decide
      · rw [hr]
        exact normalPath_of_normAcc ab acc hN hre
    · rcases normalPath_result p hp with hdot | ⟨ab, acc, hN, hre, hr, _⟩
      · exact Or.inl hdot
      · refine Or.inr ⟨acc,
          fun t ht => ⟨(hN.1.1 t ht).1, (hN.1.1 t ht).2, hN.2.1 t ht⟩, ?_⟩
        cases ab with
        | true => exact Or.inl ⟨hr, hN.1.2 rfl⟩
        | false => exact Or.inr ⟨hr, hN.2.2 rfl⟩

/-- C10 witness: the characterization and idempotence evaluated on the
concrete path `a/.././../b//c/`. -/
theorem c10_normal_path_witness :
    normalPath ("a/.././../b//c/".toList) = "../b/c".toList ∧
    normalPath (normalPath ("a/.././../b//c/".toList)) =
      normalPath ("a/.././../b//c/".toList) := by
  exact ⟨by decide, (c10_normal_path ("a/.././../b//c/".toList)).2.1⟩

/-! ## C6 — container name resolution (`TClient::ResolveName`, src/src/client.cpp) -/

/-- The RPC error taxonomy `EError` (rpc.proto / error.hpp): the codes used
by the embedded operations. -/
inductive EError where
  | InvalidValue
  | InvalidState
  | Permission
  | ContainerAlreadyExists
  | ContainerDoesNotExist
  | ResourceNotAvailable
  | NoSpace
  | Busy
  | LayerNotFound
  | VolumeNotFound
  | NotSupported
  | Queued
  | Unknown
  deriving DecidableEq, Repr

/-- `SELF_CONTAINER`: the alias `self` for the client's own container. -/
def selfContainer : Str := "self".toList

/-- `DOT_CONTAINER`: the alias `.` for the parent of the namespace. -/
def dotContainer : Str := ['.']

/-- `ROOT_PORTO_NAMESPACE`: the prefix `/porto/` marking absolute names. -/
def rootPortoNamespace : Str := "/porto/".toList

/-- Modelled from the spec: `TContainer::ParentName` (container.cpp is not
among the sources) — `.` resolves to the parent of the porto namespace, the
name cut at its last `/`; a name with no `/` is returned unchanged
(`substr(0, rfind('/'))` with `rfind` = `npos`). -/
def parentName (name : Str) : Str :=
  match rfindSlash name with
  | some i => name.take i
  | none => name

/-- The rewrite block of `TClient::ResolveName` (src/src/client.cpp), in
source order: `/`, `self`, `.`, `self/…`, `/porto/…`, and the namespace
prefix for everything else. -/
def resolveRawCode (ns clientName rel : Str) : Str :=
  if rel = rootContainer then rootContainer
  else if rel = selfContainer then clientName
  else if rel = dotContainer then parentName ns
  else if stringStartsWith rel (selfContainer ++ ['/']) then
    (if clientName ≠ rootContainer then
      clientName ++ '/' :: rel.drop (selfContainer.length + 1)
     else rel.drop (selfContainer.length + 1))
  else if stringStartsWith rel rootPortoNamespace then
    rel.drop rootPortoNamespace.length
  else ns ++ rel

/-- `TClient::ResolveName` (src/src/client.cpp): rewrite the request name
relative to the client's porto namespace `ns` and own container name
`clientName`, normalize, and admit only names the client may see.  The
admission disjuncts follow the source line by line. -/
def resolveName (ns clientName rel : Str) : Except EError Str :=
  let name := normalPath (resolveRawCode ns clientName rel)
  let name := if name = ['.'] then rootContainer else name
  if stringStartsWith name ns ||
      stringStartsWith name (clientName ++ ['/']) ||
      stringStartsWith (clientName ++ ['/']) (name ++ ['/']) ||
      name == rootContainer then
    .ok name
  else
    .error .Permission

/-- `a` is the container `b` itself or one of its ancestors: the root is an
ancestor of everything, and otherwise `b` must continue `a` after a `/`. -/
def isAncestorOf (a b : Str) : Bool :=
  a == rootContainer || stringStartsWith b (a ++ ['/'])

/-- The claim's admission condition, stated literally: the resolved name
lies within the client's namespace, or is the client's own container, or one
of its ancestors. -/
def claimResolveAccept (ns clientName name : Str) : Bool :=
  stringStartsWith name ns || name == clientName || isAncestorOf name clientName

/-- The claim's rewrite table, in the claim's order: `/` to the root,
`self` to the client's container, `self/X` to a child of the client's
container, `/porto/`-prefixed names to absolute names, `.` to the parent of
the namespace, anything else prefixed by the namespace. -/
def resolveRawSpec (ns clientName rel : Str) : Str :=
  if rel = rootContainer then rootContainer
  else if rel = selfContainer then clientName
  else if stringStartsWith rel (selfContainer ++ ['/']) then
    (if clientName = rootContainer then rel.drop (selfContainer.length + 1)
     else clientName ++ '/' :: rel.drop (selfContainer.length + 1))
  else if stringStartsWith rel rootPortoNamespace then
    rel.drop rootPortoNamespace.length
  else if rel = dotContainer then parentName ns
  else ns ++ rel

/-- The claim's resolved name: its rewrite table followed by normalization,
with an all-cancelled result standing for the root. -/
def resolvedNameOf (ns clientName rel : Str) : Str :=
  let n := normalPath (resolveRawSpec ns clientName rel)
  if n = ['.'] then rootContainer else n

/-- The amended resolution contract: like the claim, with the admission
condition widened by the one case the claim omits — the resolved name may
also be a strict descendant of the client's own container. -/
def specResolveName (ns clientName rel : Str) : Except EError Str :=
  let name := resolvedNameOf ns clientName rel
  if claimResolveAccept ns clientName name ||
      stringStartsWith name (clientName ++ ['/']) then
    .ok name
  else
    .error .Permission

theorem startsWith_concat_slash (n c : Str) :
    stringStartsWith (c ++ ['/']) (n ++ ['/']) =
      (n == c || stringStartsWith c (n ++ ['/'])) := by
  rcases h : stringStartsWith (c ++ ['/']) (n ++ ['/']) with _ | _
  · have hnot := (not_congr (stringStartsWith_iff (c ++ ['/']) (n ++ ['/']))).mp
      (by simp [h])
    rw [List.prefix_concat_iff] at hnot
    push_neg at hnot
    symm
    simp only [Bool.or_eq_false_iff, beq_eq_false_iff_ne, ne_eq]
    constructor
    · intro hx
      subst hx
      exact hnot.1 rfl
    · rw [show (stringStartsWith c (n ++ ['/']) = false) ↔
          ¬ (stringStartsWith c (n ++ ['/']) = true) by simp]
      rw [stringStartsWith_iff]
      exact hnot.2
  · have hpre := (stringStartsWith_iff (c ++ ['/']) (n ++ ['/'])).mp h
    rw [List.prefix_concat_iff] at hpre
    symm
    rcases hpre with hpre | hpre
    · have : n = c := List.append_cancel_right hpre
      simp [this]
    · have : stringStartsWith c (n ++ ['/']) = true :=
        (stringStartsWith_iff _ _).mpr hpre
      simp [this]

theorem resolveRaw_eq (ns clientName rel : Str) :
    resolveRawCode ns clientName rel = resolveRawSpec ns clientName rel := by
  unfold resolveRawCode resolveRawSpec
  by_cases h1 : rel = rootContainer
  · simp [h1]
  · by_cases h2 : rel = selfContainer
    · simp [h1, h2]
    · by_cases h3 : rel = dotContainer
      · subst h3
        have e1 : stringStartsWith dotContainer (selfContainer ++ ['/']) = false := rfl
        have e2 : stringStartsWith dotContainer rootPortoNamespace = false := rfl
        simp [h1, h2, e1, e2]
      · by_cases h4 : stringStartsWith rel (selfContainer ++ ['/']) = true
        · simp [h1, h2, h3, h4, ite_not]
        · have h4' : stringStartsWith rel (selfContainer ++ ['/']) = false := by
            simpa using h4
          by_cases h5 : stringStartsWith rel rootPortoNamespace = true
          · simp [h1, h2, h3, h4', h5]
          · have h5' : stringStartsWith rel rootPortoNamespace = false := by
              simpa using h5
            simp [h1, h2, h3, h4', h5']

theorem resolveAccept_eq (ns clientName name : Str) :
    (stringStartsWith name ns ||
     stringStartsWith name (clientName ++ ['/']) ||
     stringStartsWith (clientName ++ ['/']) (name ++ ['/']) ||
     name == rootContainer) =
    (claimResolveAccept ns clientName name ||
     stringStartsWith name (clientName ++ ['/'])) := by
  unfold claimResolveAccept isAncestorOf
  rw [startsWith_concat_slash]
  generalize stringStartsWith name ns = a
  generalize stringStartsWith name (clientName ++ ['/']) = b
  generalize (name == clientName) = e
  generalize stringStartsWith clientName (name ++ ['/']) = d
  generalize (name == rootContainer) = r
  cases a <;> cases b <;> cases e <;> cases d <;> cases r <;> rfl

/-- C6 (amended): `ResolveName` rewrites every relative name exactly as the
claim's table says (`/` to the root, `self` to the client's container,
`self/X` to a child of it, `/porto/`-prefixed names to absolute names, `.`
to the parent of the namespace, everything else prefixed by the namespace),
normalizes the result, and succeeds iff the resolved name lies within the
client's namespace, or is the client's own container or one of its
ancestors, **or is a strict descendant of the client's own container** (the
case the claim omits); otherwise it fails with the permission error. -/
theorem c6_resolve_name_amended (ns clientName rel : Str) :
    resolveName ns clientName rel = specResolveName ns clientName rel := by
  simp only [resolveName, specResolveName, resolvedNameOf, resolveRaw_eq,
    resolveAccept_eq]

/-- C6 counterexample to the claim as stated: a client in container `a`
with porto namespace `x/` resolves `self/c` to `a/c` successfully, yet
`a/c` is neither inside the namespace `x/`, nor the client's container `a`,
nor one of its ancestors. -/
theorem c6_resolve_name_counterexample :
    resolveName ("x/".toList) ("a".toList) ("self/c".toList) =
      .ok ("a/c".toList) ∧
    claimResolveAccept ("x/".toList) ("a".toList) ("a/c".toList) = false := by
  exact ⟨rfl, by decide⟩

/-! ## C5 — client access level (`TClient::IdentifyClient`, src/src/client.cpp) -/

/-- Modelled from the spec: the access levels in ascending order
`None < ReadOnly < Normal < SuperUser < Internal` (the `EAccessLevel` enum
declaration is not among the sources; the source compares and takes minima
by enum value). -/
inductive EAccessLevel where
  | None
  | ReadOnly
  | Normal
  | SuperUser
  | Internal
  deriving DecidableEq, Repr

/-- The numeric value of an access level (its position in the enum). -/
def EAccessLevel.rank : EAccessLevel → Nat
  | .None => 0
  | .ReadOnly => 1
  | .Normal => 2
  | .SuperUser => 3
  | .Internal => 4

/-- `std::min` on access levels, comparing by enum value. -/
def levelMin (a b : EAccessLevel) : EAccessLevel :=
  if a.rank ≤ b.rank then a else b

/-- The access-level computation of `TClient::IdentifyClient`
(src/src/client.cpp): fold the minimum over the container and its ancestors
(`for (auto p = ct->Parent; p; p = p->Parent)`), fail with the permission
error when the minimum is `None` or when the container is not in a running,
starting or meta state, then adjust for the effective credentials: a
root-user client at exactly `Normal` is raised to `SuperUser`, and a client
outside the porto group is capped at `ReadOnly`. -/
def identifyAccessLevel (ctLevel : EAccessLevel) (ancestors : List EAccessLevel)
    (stateOk credIsRoot credInPortoGroup : Bool) : Except EError EAccessLevel :=
  let lvl := ancestors.foldl levelMin ctLevel
  if lvl = .None then .error .Permission
  else if !stateOk then .error .Permission
  else
    let lvl :=
      if credIsRoot then (if lvl = .Normal then .SuperUser else lvl)
      else if !credInPortoGroup then
        (if EAccessLevel.ReadOnly.rank < lvl.rank then .ReadOnly else lvl)
      else lvl
    .ok lvl

theorem foldl_levelMin_le (ct : EAccessLevel) (anc : List EAccessLevel) :
    (anc.foldl levelMin ct).rank ≤ ct.rank ∧
      ∀ a ∈ anc, (anc.foldl levelMin ct).rank ≤ a.rank := by
  induction anc generalizing ct with
  | nil => simp
  | cons a as ih =>
    have hmin : (levelMin ct a).rank ≤ ct.rank ∧ (levelMin ct a).rank ≤ a.rank := by
      unfold levelMin
      split <;> omega
    obtain ⟨ih1, ih2⟩ := ih (levelMin ct a)
    refine ⟨le_trans ih1 hmin.1, ?_⟩
    intro x hx
    rcases List.mem_cons.mp hx with rfl | hx
    · exact le_trans ih1 hmin.2
    · exact ih2 x hx

theorem adjustLevel_cases (isRoot inGroup : Bool) (m : EAccessLevel)
    (hm : m ≠ .None) :
    ((if isRoot then (if m = EAccessLevel.Normal then EAccessLevel.SuperUser else m)
      else if !inGroup then
        (if EAccessLevel.ReadOnly.rank < m.rank then EAccessLevel.ReadOnly else m)
      else m) ≠ EAccessLevel.None) ∧
    (((if isRoot then (if m = EAccessLevel.Normal then EAccessLevel.SuperUser else m)
       else if !inGroup then
         (if EAccessLevel.ReadOnly.rank < m.rank then EAccessLevel.ReadOnly else m)
       else m).rank ≤ m.rank) ∨
      (isRoot = true ∧ m = .Normal ∧
       (if isRoot then (if m = EAccessLevel.Normal then EAccessLevel.SuperUser else m)
        else if !inGroup then
          (if EAccessLevel.ReadOnly.rank < m.rank then EAccessLevel.ReadOnly else m)
        else m) = .SuperUser)) := by
  cases isRoot <;> cases inGroup <;> cases m <;>
    first
      | exact absurd rfl hm
      | decide

/-- C5 (amended): when identification succeeds, the client's effective
access level is never `None` and is bounded by the access level of its
container and of every ancestor, **except** in the one case the claim
misses: a root-user client whose chain minimum is exactly `Normal` is
promoted to `SuperUser`, above that minimum.  When the chain minimum is
`None`, identification fails with the permission error. -/
theorem c5_identify_access_amended (ct : EAccessLevel) (anc : List EAccessLevel)
    (stateOk isRoot inGroup : Bool) :
    (anc.foldl levelMin ct = .None →
      identifyAccessLevel ct anc stateOk isRoot inGroup = .error .Permission) ∧
    ∀ lvl, identifyAccessLevel ct anc stateOk isRoot inGroup = .ok lvl →
      lvl ≠ .None ∧
      ((lvl.rank ≤ ct.rank ∧ ∀ a ∈ anc, lvl.rank ≤ a.rank) ∨
        (isRoot = true ∧ anc.foldl levelMin ct = .Normal ∧ lvl = .SuperUser)) := by
  obtain ⟨hle, hall⟩ := foldl_levelMin_le ct anc
  unfold identifyAccessLevel
  by_cases hnone : anc.foldl levelMin ct = .None
  · rw [if_pos hnone]
    exact ⟨fun _ => rfl, fun lvl h => by cases h⟩
  · rw [if_neg hnone]
    refine ⟨fun hx => absurd hx hnone, ?_⟩
    intro lvl h
    by_cases hstate : stateOk
    · rw [if_neg (by simp [hstate])] at h
      simp only [Except.ok.injEq] at h
      obtain ⟨hne, hbound⟩ := adjustLevel_cases isRoot inGroup _ hnone
      subst h
      refine ⟨hne, ?_⟩
      rcases hbound with hb | ⟨hr, hn, hs⟩
      · exact Or.inl ⟨le_trans hb hle, fun a ha => le_trans hb (hall a ha)⟩
      · exact Or.inr ⟨hr, hn, hs⟩
    · rw [if_pos (by simp [hstate])] at h
      cases h

/-- C5 witness: the amended bound evaluated for a non-root porto-group
client in a `Normal` container under an `Internal` root chain. -/
theorem c5_identify_access_witness :
    EAccessLevel.Normal ≠ .None ∧
    ((EAccessLevel.Normal.rank ≤ EAccessLevel.Normal.rank ∧
      ∀ a ∈ [EAccessLevel.Internal], EAccessLevel.Normal.rank ≤ a.rank) ∨
     (false = true ∧
      List.foldl levelMin EAccessLevel.Normal [EAccessLevel.Internal] = .Normal ∧
      EAccessLevel.Normal = .SuperUser)) :=
  (c5_identify_access_amended .Normal [.Internal] true false true).2 .Normal rfl

/-- C5 counterexample to the claim as stated: a root-user client in a
container with access level `Normal` (and no stricter ancestor) is assigned
`SuperUser`, which is strictly above its container's access level. -/
theorem c5_identify_access_counterexample :
    identifyAccessLevel .Normal [] true true false = .ok .SuperUser ∧
    ¬ EAccessLevel.SuperUser.rank ≤ EAccessLevel.Normal.rank := by
  exact ⟨rfl, by decide⟩

/-! ## C7 — container creation (`TContainerHolder::Create`, src/holder.cpp) -/

/-- The container states (`EContainerState`, src/src/container.hpp). -/
inductive EContainerState where
  | Stopped
  | Dead
  | Starting
  | Running
  | Paused
  | Meta
  | Destroyed
  deriving DecidableEq, Repr

/-- The name → container map of `TContainerHolder`, with only the data the
creation contract concerns: each entry's state. -/
abbrev ContainerMap := List (Str × EContainerState)

/-- `Containers.find(name) != Containers.end()`. -/
def containsName (m : ContainerMap) (n : Str) : Bool :=
  m.any (fun e => e.1 == n)

/-- `TContainerHolder::GetParent` (src/holder.cpp): the root has no parent,
`/porto`'s parent is the root, a single-segment name belongs under `/porto`
(the two special containers always exist, so `Containers.at` on them cannot
fail), and a multi-segment name requires its prefix up to the last `/` to be
present — `nullptr` (here `none` with a non-root name) when it is missing. -/
def getParent (m : ContainerMap) (name : Str) : Option Str :=
  if name = rootContainer then none
  else if name = portoRootContainer then some rootContainer
  else
    match rfindSlash name with
    | none => some portoRootContainer
    | some i =>
      let parentName := name.take i
      if containsName m parentName then some parentName else none

/-- `TContainerHolder::Create` (src/holder.cpp): validate the name, reject
duplicates, enforce `config().container().max_total()`, require the parent,
check permission on non-special parents (`TContainer::CheckPermission`,
whose container sources are absent, is the oracle `canControlParent` and
fails with the permission error per the spec), draw an id from the pool and
build the container (their failures are the `idGet`/`ctCreate` arguments),
and only then insert the new container — in the Stopped state, per the
spec's "insert node in Stopped" (the container constructor is not among the
sources).  The map is returned unchanged on every failure. -/
def create (m : ContainerMap) (maxTotal : Nat) (name : Str)
    (canControlParent : Str → Bool) (idGet ctCreate : Except EError Unit) :
    Except EError Unit × ContainerMap :=
  if !validName name then (.error .InvalidValue, m)
  else if containsName m name then (.error .ContainerAlreadyExists, m)
  else if maxTotal < m.length + 1 then (.error .ResourceNotAvailable, m)
  else
    if getParent m name = none ∧ name ≠ rootContainer then (.error .InvalidValue, m)
    else
      match getParent m name with
      | some p =>
        if p ≠ rootContainer ∧ p ≠ portoRootContainer ∧ ¬canControlParent p then
          (.error .Permission, m)
        else
          match idGet with
          | .error e => (.error e, m)
          | .ok _ =>
            match ctCreate with
            | .error e => (.error e, m)
            | .ok _ => (.ok (), m ++ [(name, .Stopped)])
      | none =>
        match idGet with
        | .error e => (.error e, m)
        | .ok _ =>
          match ctCreate with
          | .error e => (.error e, m)
          | .ok _ => (.ok (), m ++ [(name, .Stopped)])

/-- C7: `Create` enforces its preconditions with the specified errors, in
the source's order: invalid name → invalid-value; existing name →
container-exists; count over the configured maximum →
resource-not-available; missing parent → invalid-value; uncontrollable
parent → permission.  A new container is inserted only on success, in the
Stopped state, and the map is unchanged on every failure. -/
theorem c7_create_contract (m : ContainerMap) (maxTotal : Nat) (name : Str)
    (ctrl : Str → Bool) (idGet ctCreate : Except EError Unit) :
    (validName name = false →
      create m maxTotal name ctrl idGet ctCreate = (.error .InvalidValue, m)) ∧
    (validName name = true → containsName m name = true →
      create m maxTotal name ctrl idGet ctCreate = (.error .ContainerAlreadyExists, m)) ∧
    (validName name = true → containsName m name = false → maxTotal < m.length + 1 →
      create m maxTotal name ctrl idGet ctCreate = (.error .ResourceNotAvailable, m)) ∧
    (validName name = true → containsName m name = false → ¬maxTotal < m.length + 1 →
      getParent m name = none → name ≠ rootContainer →
      create m maxTotal name ctrl idGet ctCreate = (.error .InvalidValue, m)) ∧
    (∀ p, validName name = true → containsName m name = false →
      ¬maxTotal < m.length + 1 → getParent m name = some p →
      p ≠ rootContainer → p ≠ portoRootContainer → ctrl p = false →
      create m maxTotal name ctrl idGet ctCreate = (.error .Permission, m)) ∧
    (∀ r, create m maxTotal name ctrl idGet ctCreate = (.ok (), r) →
      r = m ++ [(name, .Stopped)]) ∧
    (∀ e r, create m maxTotal name ctrl idGet ctCreate = (.error e, r) → r = m) := by
  refine ⟨?_, ?_, ?_, ?_, ?_, ?_, ?_⟩
  · intro h
    simp [create, h]
  · intro hv hc
    simp [create, hv, hc]
  · intro hv hc hcount
    simp [create, hv, hc, hcount]
  · intro hv hc hcount hpar hroot
    simp [create, hv, hc, hcount, hpar, hroot]
  · intro p hv hc hcount hpar hp1 hp2 hctrl
    simp [create, hv, hc, hcount, hpar, hp1, hp2, hctrl]
  · intro r h
    unfold create at h
    repeat' split at h
    all_goals
      first
        | exact (congrArg Prod.snd h).symm
        | exact absurd (congrArg Prod.fst h) (by simp)
  · intro e r h
    unfold create at h
    repeat' split at h
    all_goals
      first
        | exact (congrArg Prod.snd h).symm
        | exact absurd (congrArg Prod.fst h) (by simp)

/-- C7 witness: the invalid-name precondition evaluated on the concrete
name `a//b` against an empty map. -/
theorem c7_create_contract_witness :
    create [] 10 ("a//b".toList) (fun _ => true) (.ok ()) (.ok ()) =
      (.error .InvalidValue, []) :=
  (c7_create_contract [] 10 ("a//b".toList) (fun _ => true)
    (.ok ()) (.ok ())).1 (by decide)

/-! ## C9 — layer and storage name validation (`TStorage::CheckName`,
src/src/storage.cpp) -/

/-- The reserved name prefixes of the storage subsystem (src/src/storage.cpp
lines 18–21). -/
def layerTmp : Str := "_tmp_".toList

/-- `IMPORT_PREFIX`. -/
def importPrefix : Str := "_import_".toList

/-- `REMOVE_PREFIX`. -/
def removePrefix : Str := "_remove_".toList

/-- `PRIVATE_PREFIX`. -/
def privatePrefix : Str := "_private_".toList

/-- `TStorage::CheckName` (src/src/storage.cpp): reject any character
outside `PORTO_NAME_CHARS` (the constant lives in a header that is not
among the sources, so the allowed-character test is the parameter
`allowedChar`; `find_first_not_of` fails exactly when some character is
outside the set), then reject the empty name, `.`, `..`, and the four
reserved prefixes.  Both rejections use the invalid-value error. -/
def checkName (allowedChar : Char → Bool) (name : Str) : Except EError Unit :=
  if !name.all allowedChar then .error .InvalidValue
  else if name = [] ∨ name = ['.'] ∨ name = ['.', '.'] ∨
      stringStartsWith name layerTmp ∨
      stringStartsWith name importPrefix ∨
      stringStartsWith name removePrefix ∨
      stringStartsWith name privatePrefix then
    .error .InvalidValue
  else .ok ()

/-- `TStorage::List` (src/src/storage.cpp): list the subdirectories of
`<place>/<type>` and keep exactly those whose names pass `CheckName`. -/
def storageList (allowedChar : Char → Bool) (subdirs : List Str) : List Str :=
  subdirs.filter (fun name =>
    match checkName allowedChar name with
    | .ok _ => true
    | .error _ => false)

/-- `TStorage::ImportTarball` (src/src/storage.cpp line 326): `CheckName` is
the first check; its failure is returned unchanged.  The rest of the import
is outside this claim and is the `rest` continuation. -/
def importTarball (allowedChar : Char → Bool) (name : Str)
    (rest : Except EError Unit) : Except EError Unit :=
  match checkName allowedChar name with
  | .error e => .error e
  | .ok _ => rest

/-- `TStorage::ExportTarball` (src/src/storage.cpp line 464): `CheckName`
first, then the rest. -/
def exportTarball (allowedChar : Char → Bool) (name : Str)
    (rest : Except EError Unit) : Except EError Unit :=
  match checkName allowedChar name with
  | .error e => .error e
  | .ok _ => rest

/-- `PORTO_WEAK_PREFIX` (`"_weak_"`, as volume.cpp line 1223 spells it
out; the defining header is not among the sources). -/
def portoWeakPrefix : Str := "_weak_".toList

/-- `TStorage::Remove` (src/src/storage.cpp line 526): `CanControlPlace`
runs first (its failure is returned for non-weak names), then `CheckName`,
then the rest. -/
def storageRemove (allowedChar : Char → Bool) (name : Str)
    (placeCtrl : Except EError Unit) (rest : Except EError Unit) :
    Except EError Unit :=
  match placeCtrl with
  | .error e =>
    if !stringStartsWith name portoWeakPrefix then .error e
    else
      match checkName allowedChar name with
      | .error e2 => .error e2
      | .ok _ => rest
  | .ok _ =>
    match checkName allowedChar name with
    | .error e2 => .error e2
    | .ok _ => rest

/-- The claim's notion of an unusable name: empty, `.`, `..`, a character
outside the allowed set, or one of the reserved prefixes. -/
def claimBadName (allowedChar : Char → Bool) (name : Str) : Bool :=
  name == [] || name == ['.'] || name == ['.', '.'] ||
    !name.all allowedChar ||
    stringStartsWith name layerTmp ||
    stringStartsWith name importPrefix ||
    stringStartsWith name removePrefix ||
    stringStartsWith name privatePrefix

theorem checkName_error_iff (allowedChar : Char → Bool) (name : Str) :
    claimBadName allowedChar name = true ↔
      checkName allowedChar name = .error .InvalidValue := by
  unfold claimBadName checkName
  by_cases hall : name.all allowedChar
  · rw [if_neg (by simp [hall])]
    by_cases hcond : name = [] ∨ name = ['.'] ∨ name = ['.', '.'] ∨
        stringStartsWith name layerTmp = true ∨
        stringStartsWith name importPrefix = true ∨
        stringStartsWith name removePrefix = true ∨
        stringStartsWith name privatePrefix = true
    · rw [if_pos hcond]
      simp only [Bool.or_eq_true, beq_iff_eq, Bool.not_eq_true,
        List.isEmpty_iff, iff_true]
      tauto
    · rw [if_neg hcond]
      constructor
      · intro h
        exfalso
        simp only [Bool.or_eq_true, beq_iff_eq, Bool.not_eq_true] at h
        rw [hall] at h
        tauto
      · intro h
        cases h
  · rw [if_pos (by simp [hall])]
    have hf : name.all allowedChar = false := by
      simpa using hall
    simp only [Bool.or_eq_true, beq_iff_eq, Bool.not_eq_true, hf, iff_true]
    tauto

theorem checkName_total (allowedChar : Char → Bool) (name : Str) :
    checkName allowedChar name = .error .InvalidValue ∨
      checkName allowedChar name = .ok () := by
  unfold checkName
  split
  · exact Or.inl rfl
  · split
    · exact Or.inl rfl
    · exact Or.inr rfl

theorem checkName_ok_iff (allowedChar : Char → Bool) (name : Str) :
    claimBadName allowedChar name = false ↔
      checkName allowedChar name = .ok () := by
  constructor
  · intro h
    rcases checkName_total allowedChar name with hc | hc
    · rw [← checkName_error_iff] at hc
      rw [h] at hc
      cases hc
    · exact hc
  · intro h
    rcases hb : claimBadName allowedChar name with _ | _
    · rfl
    · rw [(checkName_error_iff allowedChar name).mp hb] at h
      cases h

/-- C9: names that are empty, `.`, `..`, contain a disallowed character or
begin with a reserved prefix are exactly the names `CheckName` rejects, and
it rejects them with the invalid-value error; import, export and remove
(the latter for a caller that controls the place) therefore fail with
invalid-value on such names, and listing skips exactly the entries with
such names. -/
theorem c9_reserved_names (allowedChar : Char → Bool) (name : Str) :
    (claimBadName allowedChar name = true ↔
      checkName allowedChar name = .error .InvalidValue) ∧
    (claimBadName allowedChar name = false ↔
      checkName allowedChar name = .ok ()) ∧
    (claimBadName allowedChar name = true →
      ∀ rest, importTarball allowedChar name rest = .error .InvalidValue ∧
        exportTarball allowedChar name rest = .error .InvalidValue ∧
        storageRemove allowedChar name (.ok ()) rest = .error .InvalidValue) ∧
    (∀ subdirs, storageList allowedChar subdirs =
      subdirs.filter (fun n => !claimBadName allowedChar n)) := by
  refine ⟨checkName_error_iff allowedChar name, checkName_ok_iff allowedChar name,
    ?_, ?_⟩
  · intro h rest
    have he := (checkName_error_iff allowedChar name).mp h
    exact ⟨by simp [importTarball, he], by simp [exportTarball, he],
      by simp [storageRemove, he]⟩
  · intro subdirs
    unfold storageList
    congr 1
    funext n
    rcases hb : claimBadName allowedChar n with _ | _
    · simp [(checkName_ok_iff allowedChar n).mp hb, hb]
    · simp [(checkName_error_iff allowedChar n).mp hb, hb]

/-- C9 witness: the reserved name `_tmp_x` and the dot name `..` are
rejected by import, export, remove and skipped by listing, over the
alphanumeric allowed set. -/
theorem c9_reserved_names_witness :
    importTarball (fun c => c.isAlphanum || c == '_') ("_tmp_x".toList) (.ok ()) =
      .error .InvalidValue ∧
    storageList (fun c => c.isAlphanum || c == '_') [("_tmp_x".toList), ("ok1".toList)] =
      [("ok1".toList)] := by
  constructor
  · exact ((c9_reserved_names (fun c => c.isAlphanum || c == '_')
      ("_tmp_x".toList)).2.2.1 (by decide) (.ok ())).1
  · have h := (c9_reserved_names (fun c => c.isAlphanum || c == '_')
      ("_tmp_x".toList)).2.2.2 [("_tmp_x".toList), ("ok1".toList)]
    rw [h]
    decide

/-! ## C8 — the Wait request (`Wait`, src/src/rpc.cpp) -/

/-- The slice of a container that the Wait handler inspects. -/
structure WaitCt where
  name : Str
  state : EContainerState
  runningChildren : Bool
  isRoot : Bool
  deriving DecidableEq, Repr

/-- `name.find_first_of("*?") != npos`. -/
def isWildcardName (n : Str) : Bool :=
  n.any (fun c => c == '*' || c == '?')

/-- The running test of the Wait handler: explicit wait completes
immediately unless the target is Running, Starting, or a Meta container
with running children. -/
def waitRunning (ct : WaitCt) : Bool :=
  ct.state == .Running || ct.state == .Starting ||
    (ct.state == .Meta && ct.runningChildren)

/-- The wildcard-scan test: wildcards notify immediately only dead
containers and hollow metas. -/
def wildcardImmediate (ct : WaitCt) : Bool :=
  ct.state == .Dead || (ct.state == .Meta && !ct.runningChildren)

/-- `TClient::ComposeName` (src/src/client.cpp): the root keeps its name,
an empty namespace passes names through, and otherwise the namespace must
be a prefix, which is stripped. -/
def composeName (ns name : Str) : Except EError Str :=
  if name = rootContainer then .ok rootContainer
  else if ns = [] then .ok name
  else if !stringStartsWith name ns then .error .Permission
  else .ok (name.drop ns.length)

/-- The observable outcome of a Wait request: an immediate reply carrying a
name, an immediate error carrying the failing name, the empty-name reply of
a zero-timeout wait, or the queued sentinel together with the registered
named waiters, the registered wildcard patterns, and whether a WaitTimeout
event was scheduled. -/
inductive WaitOutcome where
  | errorOut (e : EError)
  | failed (name : Str) (e : EError)
  | immediate (name : Str)
  | empty
  | queued (named : List Str) (wildcards : List Str) (timer : Bool)
  deriving DecidableEq, Repr

/-- The `for (int i = 0; i < req.name_size(); i++)` loop of `Wait`:
wildcard names are collected, other names are resolved (resolution failure
completes the request with that name and the error), a target that is not
running completes the request immediately with that name, and running
targets are registered when the wait is queueable. -/
def waitLoop (resolve : Str → Except EError WaitCt) (queueWait : Bool) :
    List Str → List Str → List Str →
    Sum WaitOutcome (List Str × List Str)
  | [], wilds, regs => .inr (regs, wilds)
  | n :: rest, wilds, regs =>
    if isWildcardName n then waitLoop resolve queueWait rest (wilds ++ [n]) regs
    else
      match resolve n with
      | .error e => .inl (.failed n e)
      | .ok ct =>
        if !waitRunning ct then .inl (.immediate n)
        else waitLoop resolve queueWait rest wilds
          (if queueWait then regs ++ [n] else regs)

/-- The wildcard scan over the container map: the first non-root dead or
hollow-meta container whose composed name matches one of the collected
patterns (`matchWild` stands for `TContainerWaiter::MatchWildcard`, whose
container sources are absent; the spec specifies exact-or-glob matching). -/
def scanWild (cts : List WaitCt) (ns : Str) (matchWild : List Str → Str → Bool)
    (wilds : List Str) : Option Str :=
  cts.findSome? (fun ct =>
    if ct.isRoot then none
    else if !wildcardImmediate ct then none
    else
      match composeName ns ct.name with
      | .error _ => none
      | .ok rel => if matchWild wilds rel then some rel else none)

/-- `bool queueWait = !req.has_timeout() || req.timeout() != 0`. -/
def queueWaitOf (timeout : Option Nat) : Bool :=
  match timeout with
  | none => true
  | some t => t ≠ 0

/-- `Wait` (src/src/rpc.cpp): an empty name list is invalid; the name loop
may complete the request immediately; a non-empty wildcard set scans the
existing containers; a zero-timeout wait then answers with the empty name;
otherwise the request is queued, scheduling a WaitTimeout event exactly
when a timeout was given. -/
def waitRequest (cts : List WaitCt) (resolve : Str → Except EError WaitCt)
    (ns : Str) (matchWild : List Str → Str → Bool)
    (names : List Str) (timeout : Option Nat) : WaitOutcome :=
  let queueWait := queueWaitOf timeout
  if names.isEmpty then .errorOut .InvalidValue
  else
    match waitLoop resolve queueWait names [] [] with
    | .inl out => out
    | .inr (regs, wilds) =>
      match (if wilds ≠ [] then scanWild cts ns matchWild wilds else none) with
      | some nm => .immediate nm
      | none =>
        if !queueWait then .empty
        else .queued regs (if wilds ≠ [] then wilds else []) timeout.isSome

/-- The claim's gloss of "not running": dead, stopped, or a meta container
with no running children. -/
def claimNotRunning (st : EContainerState) (runningChildren : Bool) : Bool :=
  st == .Dead || st == .Stopped || (st == .Meta && !runningChildren)

theorem waitLoop_skip (resolve : Str → Except EError WaitCt) (q : Bool)
    (pre : List Str)
    (h : ∀ m ∈ pre, isWildcardName m = true ∨
      ∃ c, resolve m = .ok c ∧ waitRunning c = true) :
    ∀ rest wilds regs, waitLoop resolve q (pre ++ rest) wilds regs =
      waitLoop resolve q rest (wilds ++ pre.filter isWildcardName)
        (regs ++ (if q then pre.filter (fun m => !isWildcardName m) else [])) := by
  induction pre with
  | nil =>
    intro rest wilds regs
    cases q <;> simp
  | cons m pre ih =>
    intro rest wilds regs
    have hpre : ∀ x ∈ pre, isWildcardName x = true ∨
        ∃ c, resolve x = .ok c ∧ waitRunning c = true :=
      fun x hx => h x (List.mem_cons_of_mem _ hx)
    by_cases hw : isWildcardName m = true
    · rw [List.cons_append,
        show waitLoop resolve q (m :: (pre ++ rest)) wilds regs =
          waitLoop resolve q (pre ++ rest) (wilds ++ [m]) regs by
            simp [waitLoop, hw],
        ih hpre]
      rw [List.filter_cons_of_pos (by simpa using hw),
        List.filter_cons_of_neg (by simpa using hw)]
      simp
    · rcases h m (by simp) with hw' | ⟨c, hres, hrun⟩
      · exact absurd hw' hw
      · rw [List.cons_append,
          show waitLoop resolve q (m :: (pre ++ rest)) wilds regs =
            waitLoop resolve q (pre ++ rest) wilds
              (if q then regs ++ [m] else regs) by
              simp [waitLoop, hw, hres, hrun],
          ih hpre]
        rw [List.filter_cons_of_neg (by simpa using hw),
          List.filter_cons_of_pos (by simpa using hw)]
        cases q <;> simp

/-- C8 (amended): an empty name list is rejected with invalid-value; a
named (non-wildcard) target that is **not running, starting, or a meta with
running children** — so dead, stopped, **paused**, destroyed, or a hollow
meta — completes the request immediately with that name (provided the names
before it are wildcards or running targets); when every named target is
running and no wildcard matches an existing dead or hollow-meta container,
a zero-timeout wait answers the empty name at once and registers nothing,
and any other wait queues the named and wildcard waiters, scheduling a
WaitTimeout event exactly when a timeout was supplied. -/
theorem c8_wait_amended (cts : List WaitCt) (resolve : Str → Except EError WaitCt)
    (ns : Str) (matchWild : List Str → Str → Bool) (timeout : Option Nat) :
    (waitRequest cts resolve ns matchWild [] timeout = .errorOut .InvalidValue) ∧
    (∀ pre n rest ct,
      (∀ m ∈ pre, isWildcardName m = true ∨
        ∃ c, resolve m = .ok c ∧ waitRunning c = true) →
      isWildcardName n = false → resolve n = .ok ct → waitRunning ct = false →
      waitRequest cts resolve ns matchWild (pre ++ n :: rest) timeout =
        .immediate n) ∧
    (∀ names, names ≠ [] →
      (∀ m ∈ names, isWildcardName m = true ∨
        ∃ c, resolve m = .ok c ∧ waitRunning c = true) →
      (names.filter isWildcardName ≠ [] →
        scanWild cts ns matchWild (names.filter isWildcardName) = none) →
      (timeout = some 0 →
        waitRequest cts resolve ns matchWild names timeout = .empty) ∧
      (timeout ≠ some 0 →
        waitRequest cts resolve ns matchWild names timeout =
          .queued (names.filter (fun n => !isWildcardName n))
            (names.filter isWildcardName) timeout.isSome)) := by
  refine ⟨by simp [waitRequest], ?_, ?_⟩
  · intro pre n rest ct hpre hwild hres hrun
    unfold waitRequest
    rw [if_neg (by simp)]
    rw [waitLoop_skip resolve _ pre hpre (n :: rest) [] []]
    rw [show ∀ w r, waitLoop resolve _ (n :: rest) w r =
        Sum.inl (.immediate n) from fun w r => by
      simp [waitLoop, hwild, hres, hrun]]
  · intro names hne hall hscan
    constructor
    · intro ht0
      subst ht0
      unfold waitRequest
      rw [if_neg (by simpa using hne)]
      have hq : queueWaitOf (some 0) = false := by decide
      rw [show names = names ++ [] by simp] at hne ⊢
      rw [waitLoop_skip resolve _ names (by simpa using hall) [] [] []]
      simp only [waitLoop, List.nil_append, hq, Bool.not_false, if_true]
      by_cases hw : names.filter isWildcardName = []
      · simp [hw]
      · rw [if_pos (by simpa using hw), hscan (by simpa using hw)]
    · intro htn
      unfold waitRequest
      rw [if_neg (by simpa using hne)]
      have hq : queueWaitOf timeout = true := by
        rcases htt : timeout with _ | t
        · rfl
        · have ht : t ≠ 0 := fun h0 => htn (by rw [htt, h0])
          simp [queueWaitOf, ht]
      rw [show names = names ++ [] by simp] at hne ⊢
      rw [waitLoop_skip resolve _ names (by simpa using hall) [] [] []]
      simp only [waitLoop, List.nil_append]
      rw [hq]
      by_cases hw : names.filter isWildcardName = []
      · simp [hw]
      · rw [if_pos (by simpa using hw), hscan (by simpa using hw)]
        simp [hw]

/-- The resolver of the C8 witness: the single container `a`, dead. -/
def waitResolveDead : Str → Except EError WaitCt := fun n =>
  if n = "a".toList then .ok ⟨"a".toList, .Dead, false, false⟩
  else .error .ContainerDoesNotExist

/-- C8 witness: waiting on the dead container `a` completes immediately
with its name. -/
theorem c8_wait_witness :
    waitRequest [] waitResolveDead [] (fun _ _ => false)
      ([] ++ ("a".toList) :: []) none = .immediate ("a".toList) :=
  (c8_wait_amended [] waitResolveDead [] (fun _ _ => false) none).2.1
    [] ("a".toList) [] ⟨"a".toList, .Dead, false, false⟩
    (by simp) (by decide) (by rfl) (by decide)

/-- The resolver of the C8 counterexample: the single container `a`,
paused. -/
def waitResolvePaused : Str → Except EError WaitCt := fun n =>
  if n = "a".toList then .ok ⟨"a".toList, .Paused, false, false⟩
  else .error .ContainerDoesNotExist

/-- C8 counterexample to the claim as stated: a zero-timeout wait on the
**paused** container `a` — which is not dead, not stopped and not a meta,
so per the claim there is no immediately-completing target and the reply
should carry the empty name — in fact completes immediately with `a`. -/
theorem c8_wait_counterexample :
    waitRequest [] waitResolvePaused [] (fun _ _ => false)
      [("a".toList)] (some 0) = .immediate ("a".toList) ∧
    claimNotRunning .Paused false = false ∧
    WaitOutcome.immediate ("a".toList) ≠ .empty := by
  exact ⟨rfl, by decide, by decide⟩

/-! ## C3 — volume guarantee admission (`TVolume::CheckGuarantee` and
`TVolume::Tune`, src/src/volume.cpp) -/

/-- `TStatFS`: the filesystem statistics consumed by the guarantee check. -/
structure TStatFS where
  spaceAvail : Nat
  spaceUsage : Nat
  inodeAvail : Nat
  inodeUsage : Nat
  deriving DecidableEq, Repr

/-- `uint64_t` addition: the sums in `CheckGuarantee` are 64-bit and wrap. -/
def add64 (a b : Nat) : Nat := (a + b) % 2 ^ 64

/-- Another volume as seen by the guarantee loop: its backend, whether its
storage sits on the same device as ours (`GetStorage().GetDev()`
comparison), whether it is ready and its `StatFS` succeeds, its statistics,
and its configured guarantees.  Volumes that are `nullptr` or `this` are
already skipped by the loop and are not listed. -/
structure VolOther where
  backend : Str
  sameDev : Bool
  ready : Bool
  statOk : Bool
  stat : TStatFS
  spaceG : Nat
  inodeG : Nat
  deriving DecidableEq, Repr

/-- The zeroed statistics of `TStatFS::Reset`. -/
def statZero : TStatFS := ⟨0, 0, 0, 0⟩

/-- The effective statistics of another volume:
`if (!volume->IsReady() || volume->StatFS(stat)) stat.Reset();`. -/
def effStat (v : VolOther) : TStatFS :=
  if v.ready && v.statOk then v.stat else statZero

/-- One iteration of the estimation loop of `CheckGuarantee`: skip volumes
on another device, `rbd` and `plain` backends and volumes without
guarantees; accumulate (claimed space, guaranteed space, claimed inodes,
guaranteed inodes), counting each volume's claim as the minimum of its
usage and its guarantee, and skipping the inode side for `loop` volumes. -/
def stepGuar (acc : Nat × Nat × Nat × Nat) (v : VolOther) :
    Nat × Nat × Nat × Nat :=
  if !v.sameDev || v.backend == "rbd".toList || v.backend == "plain".toList then
    acc
  else if v.spaceG == 0 && v.inodeG == 0 then acc
  else
    let st := effStat v
    let (sc, sgd, ic, igd) := acc
    let sc := add64 sc (min st.spaceUsage v.spaceG)
    let sgd := add64 sgd v.spaceG
    if v.backend == "loop".toList then (sc, sgd, ic, igd)
    else (sc, sgd, add64 ic (min st.inodeUsage v.inodeG), add64 igd v.inodeG)

/-- `TVolume::CheckGuarantee` (src/src/volume.cpp): `rbd` and `tmpfs`
volumes and requests without guarantees pass; otherwise the available
space/inodes (plus this volume's usage, zero when it is not ready or its
stat fails) must cover the requested guarantee both as-is and together with
the unclaimed guarantees of the other volumes on the same device, inode
checks being waived for the `loop` backend.  Every rejection is the
no-space error.  (A failing `storage.StatFS(total)` returns that stat error
before any comparison; `total` is taken as an argument here.) -/
def checkGuarantee (backend : Str) (ready statOk : Bool) (cur total : TStatFS)
    (others : List VolOther) (sg ig : Nat) : Except EError Unit :=
  if backend == "rbd".toList || backend == "tmpfs".toList then .ok ()
  else if sg == 0 && ig == 0 then .ok ()
  else
    let current := if ready && statOk then cur else statZero
    if add64 total.spaceAvail current.spaceUsage < sg then .error .NoSpace
    else if add64 total.inodeAvail current.inodeUsage < ig ∧
        backend ≠ "loop".toList then .error .NoSpace
    else
      match others.foldl stepGuar (0, 0, 0, 0) with
      | (sc, sgd, ic, igd) =>
        if add64 (add64 total.spaceAvail current.spaceUsage) sc <
            add64 sg sgd then .error .NoSpace
        else if backend ≠ "loop".toList ∧
            add64 (add64 total.inodeAvail current.inodeUsage) ic <
              add64 ig igd then .error .NoSpace
        else .ok ()

/-- The guarantee branch of `TVolume::Tune` (src/src/volume.cpp): when a
request carries a space or inode guarantee, the merged values are checked
by `CheckGuarantee`; on failure the error is returned and the configured
values stay as they were, on success both configured values are replaced. -/
def tuneGuarantee (backend : Str) (ready statOk : Bool) (cur total : TStatFS)
    (others : List VolOther) (cfgSg cfgIg : Nat) (reqSg reqIg : Option Nat) :
    Except EError Unit × (Nat × Nat) :=
  if reqSg.isNone && reqIg.isNone then (.ok (), (cfgSg, cfgIg))
  else
    let sg := reqSg.getD cfgSg
    let ig := reqIg.getD cfgIg
    match checkGuarantee backend ready statOk cur total others sg ig with
    | .error e => (.error e, (cfgSg, cfgIg))
    | .ok _ => (.ok (), (sg, ig))

/-- Participation in the space aggregate, as the source filters it. -/
def participates (v : VolOther) : Bool :=
  v.sameDev && !(v.backend == "rbd".toList) && !(v.backend == "plain".toList) &&
    !(v.spaceG == 0 && v.inodeG == 0)

/-- Participation in the inode aggregate: additionally not `loop`. -/
def inodeParticipates (v : VolOther) : Bool :=
  participates v && !(v.backend == "loop".toList)

/-- The space claimed by the participating volumes, as exact numbers. -/
def spaceClaimedSum (others : List VolOther) : Nat :=
  ((others.filter participates).map
    (fun v => min (effStat v).spaceUsage v.spaceG)).sum

/-- The space guaranteed to the participating volumes. -/
def spaceGuaranteedSum (others : List VolOther) : Nat :=
  ((others.filter participates).map (fun v => v.spaceG)).sum

/-- The inodes claimed by the participating non-loop volumes. -/
def inodeClaimedSum (others : List VolOther) : Nat :=
  ((others.filter inodeParticipates).map
    (fun v => min (effStat v).inodeUsage v.inodeG)).sum

/-- The inodes guaranteed to the participating non-loop volumes. -/
def inodeGuaranteedSum (others : List VolOther) : Nat :=
  ((others.filter inodeParticipates).map (fun v => v.inodeG)).sum

/-- The claim's coverage condition, stated literally: available space plus
this volume's current usage plus the space already claimed by the other
**ready** volumes on the device covers the new guarantee plus the sum of
**all** other volumes' guarantees on that device. -/
def claimSpaceCovered (total : TStatFS) (curUsage : Nat)
    (others : List VolOther) (sg : Nat) : Bool :=
  sg + ((others.filter (fun v => v.sameDev)).map (fun v => v.spaceG)).sum ≤
    total.spaceAvail + curUsage +
      ((others.filter (fun v => v.sameDev && v.ready)).map
        (fun v => min v.stat.spaceUsage v.spaceG)).sum

theorem add64_eq {a b : Nat} (h : a + b < 2 ^ 64) : add64 a b = a + b :=
  Nat.mod_eq_of_lt h

theorem participates_false {v : VolOther} (h : participates v = false) :
    (!v.sameDev || v.backend == "rbd".toList ||
      v.backend == "plain".toList) = true ∨
    (v.spaceG == 0 && v.inodeG == 0) = true := by
  unfold participates at h
  rcases hsd : v.sameDev <;> rcases hr : v.backend == "rbd".toList <;>
    rcases hp : v.backend == "plain".toList <;>
    rcases hg : (v.spaceG == 0 && v.inodeG == 0) <;> simp_all

theorem participates_true {v : VolOther} (h : participates v = true) :
    v.sameDev = true ∧ (v.backend == "rbd".toList) = false ∧
    (v.backend == "plain".toList) = false ∧
    (v.spaceG == 0 && v.inodeG == 0) = false := by
  unfold participates at h
  rcases hsd : v.sameDev <;> rcases hr : v.backend == "rbd".toList <;>
    rcases hp : v.backend == "plain".toList <;>
    rcases hg : (v.spaceG == 0 && v.inodeG == 0) <;> simp_all

theorem stepGuar_skip {v : VolOther} (h : participates v = false)
    (acc : Nat × Nat × Nat × Nat) : stepGuar acc v = acc := by
  unfold stepGuar
  rcases participates_false h with h1 | h2
  · rw [if_pos h1]
  · by_cases h1 : (!v.sameDev || v.backend == "rbd".toList ||
        v.backend == "plain".toList) = true
    · rw [if_pos h1]
    · rw [if_neg h1, if_pos h2]

theorem stepGuar_part {v : VolOther} (h : participates v = true)
    (a b c d : Nat) :
    stepGuar (a, b, c, d) v =
      (if v.backend == "loop".toList then
        (add64 a (min (effStat v).spaceUsage v.spaceG), add64 b v.spaceG, c, d)
       else
        (add64 a (min (effStat v).spaceUsage v.spaceG), add64 b v.spaceG,
         add64 c (min (effStat v).inodeUsage v.inodeG), add64 d v.inodeG)) := by
  obtain ⟨hsd, hr, hp, hg⟩ := participates_true h
  have hcond : (!v.sameDev || v.backend == "rbd".toList ||
      v.backend == "plain".toList) = false := by
    rw [hsd, hr, hp]
    rfl
  unfold stepGuar
  rw [if_neg (fun hx => by rw [hcond] at hx; exact Bool.false_ne_true hx),
    if_neg (fun hx => by rw [hg] at hx; exact Bool.false_ne_true hx)]

theorem sums_cons_skip {v : VolOther} (vs : List VolOther)
    (h : participates v = false) :
    spaceClaimedSum (v :: vs) = spaceClaimedSum vs ∧
    spaceGuaranteedSum (v :: vs) = spaceGuaranteedSum vs ∧
    inodeClaimedSum (v :: vs) = inodeClaimedSum vs ∧
    inodeGuaranteedSum (v :: vs) = inodeGuaranteedSum vs := by
  have h2 : inodeParticipates v = false := by
    unfold inodeParticipates
    simp [h]
  unfold spaceClaimedSum spaceGuaranteedSum inodeClaimedSum inodeGuaranteedSum
  rw [List.filter_cons_of_neg (by simp [h]),
    List.filter_cons_of_neg (by simp [h2])]
  exact ⟨rfl, rfl, rfl, rfl⟩

theorem sums_cons_part {v : VolOther} (vs : List VolOther)
    (h : participates v = true) :
    spaceClaimedSum (v :: vs) =
      min (effStat v).spaceUsage v.spaceG + spaceClaimedSum vs ∧
    spaceGuaranteedSum (v :: vs) = v.spaceG + spaceGuaranteedSum vs ∧
    ((v.backend == "loop".toList) = true →
      inodeClaimedSum (v :: vs) = inodeClaimedSum vs ∧
      inodeGuaranteedSum (v :: vs) = inodeGuaranteedSum vs) ∧
    ((v.backend == "loop".toList) = false →
      inodeClaimedSum (v :: vs) =
        min (effStat v).inodeUsage v.inodeG + inodeClaimedSum vs ∧
      inodeGuaranteedSum (v :: vs) = v.inodeG + inodeGuaranteedSum vs) := by
  refine ⟨?_, ?_, ?_, ?_⟩
  · unfold spaceClaimedSum
    rw [List.filter_cons_of_pos (by simp [h])]
    simp
  · unfold spaceGuaranteedSum
    rw [List.filter_cons_of_pos (by simp [h])]
    simp
  · intro hloop
    have h2 : inodeParticipates v = false := by
      unfold inodeParticipates
      rw [hloop]
      simp
    unfold inodeClaimedSum inodeGuaranteedSum
    rw [List.filter_cons_of_neg (by simp [h2])]
    exact ⟨rfl, rfl⟩
  · intro hloop
    have h2 : inodeParticipates v = true := by
      unfold inodeParticipates
      rw [hloop]
      simp [h]
    unfold inodeClaimedSum inodeGuaranteedSum
    rw [List.filter_cons_of_pos (by simp [h2])]
    simp

theorem foldl_stepGuar_eq (others : List VolOther) :
    ∀ a b c d : Nat,
      a + spaceClaimedSum others < 2 ^ 64 →
      b + spaceGuaranteedSum others < 2 ^ 64 →
      c + inodeClaimedSum others < 2 ^ 64 →
      d + inodeGuaranteedSum others < 2 ^ 64 →
      others.foldl stepGuar (a, b, c, d) =
        (a + spaceClaimedSum others, b + spaceGuaranteedSum others,
         c + inodeClaimedSum others, d + inodeGuaranteedSum others) := by
  induction others with
  | nil =>
    intro a b c d _ _ _ _
    simp [spaceClaimedSum, spaceGuaranteedSum, inodeClaimedSum,
      inodeGuaranteedSum]
  | cons v vs ih =>
    intro a b c d h1 h2 h3 h4
    rw [List.foldl_cons]
    by_cases hp : participates v = true
    · obtain ⟨e1, e2, e3, e4⟩ := sums_cons_part vs hp
      rw [e1] at h1
      rw [e2] at h2
      rcases hloop : (v.backend == "loop".toList) with _ | _
      · obtain ⟨f1, f2⟩ := e4 hloop
        rw [f1] at h3
        rw [f2] at h4
        rw [stepGuar_part hp,
          if_neg (fun hx => by rw [hloop] at hx; exact Bool.false_ne_true hx)]
        rw [add64_eq (by omega), add64_eq (by omega), add64_eq (by omega),
          add64_eq (by omega)]
        rw [ih _ _ _ _ (by omega) (by omega) (by omega) (by omega)]
        rw [e1, e2, f1, f2]
        simp only [Prod.mk.injEq]
        and_intros <;> first | trivial | omega
      · obtain ⟨f1, f2⟩ := e3 hloop
        rw [f1] at h3
        rw [f2] at h4
        rw [stepGuar_part hp, if_pos hloop]
        rw [add64_eq (by omega), add64_eq (by omega)]
        rw [ih _ _ _ _ (by omega) (by omega) h3 h4]
        rw [e1, e2, f1, f2]
        simp only [Prod.mk.injEq]
        and_intros <;> first | trivial | omega
    · have hp' : participates v = false := by simpa using hp
      obtain ⟨e1, e2, e3, e4⟩ := sums_cons_skip vs hp'
      rw [stepGuar_skip hp', ih _ _ _ _ (e1 ▸ h1) (e2 ▸ h2) (e3 ▸ h3) (e4 ▸ h4),
        e1, e2, e3, e4]

theorem spaceClaimedSum_le (others : List VolOther) :
    spaceClaimedSum others ≤ spaceGuaranteedSum others := by
  unfold spaceClaimedSum spaceGuaranteedSum
  induction others.filter participates with
  | nil => simp
  | cons v vs ih =>
    simp only [List.map_cons, List.sum_cons]
    have := min_le_right (effStat v).spaceUsage v.spaceG
    omega

theorem inodeClaimedSum_le (others : List VolOther) :
    inodeClaimedSum others ≤ inodeGuaranteedSum others := by
  unfold inodeClaimedSum inodeGuaranteedSum
  induction others.filter inodeParticipates with
  | nil => simp
  | cons v vs ih =>
    simp only [List.map_cons, List.sum_cons]
    have := min_le_right (effStat v).inodeUsage v.inodeG
    omega

theorem checkGuarantee_ok_iff (backend : Str) (ready statOk : Bool)
    (cur total : TStatFS) (others : List VolOther) (sg ig : Nat)
    (h1 : total.spaceAvail + cur.spaceUsage + spaceClaimedSum others < 2 ^ 64)
    (h2 : sg + spaceGuaranteedSum others < 2 ^ 64)
    (h3 : total.inodeAvail + cur.inodeUsage + inodeClaimedSum others < 2 ^ 64)
    (h4 : ig + inodeGuaranteedSum others < 2 ^ 64) :
    checkGuarantee backend ready statOk cur total others sg ig = .ok () ↔
      (backend = "rbd".toList ∨ backend = "tmpfs".toList) ∨
      (sg = 0 ∧ ig = 0) ∨
      (sg + spaceGuaranteedSum others ≤
        total.spaceAvail + (if ready && statOk then cur.spaceUsage else 0) +
          spaceClaimedSum others ∧
       (backend = "loop".toList ∨
        ig + inodeGuaranteedSum others ≤
          total.inodeAvail + (if ready && statOk then cur.inodeUsage else 0) +
            inodeClaimedSum others)) := by
  have hsc_le := spaceClaimedSum_le others
  have hic_le := inodeClaimedSum_le others
  unfold checkGuarantee
  by_cases hb : (backend == "rbd".toList || backend == "tmpfs".toList) = true
  · rw [if_pos hb]
    have hb' : backend = "rbd".toList ∨ backend = "tmpfs".toList := by
      simpa using hb
    exact ⟨fun _ => Or.inl hb', fun _ => rfl⟩
  · rw [if_neg hb]
    by_cases hz : (sg == 0 && ig == 0) = true
    · rw [if_pos hz]
      have hz' : sg = 0 ∧ ig = 0 := by simpa using hz
      exact ⟨fun _ => Or.inr (Or.inl hz'), fun _ => rfl⟩
    · rw [if_neg hz]
      have hb' : ¬(backend = "rbd".toList ∨ backend = "tmpfs".toList) := by
        simpa using hb
      have hz' : ¬(sg = 0 ∧ ig = 0) := by
        intro hx
        exact hz (by simp [hx.1, hx.2])
      rw [foldl_stepGuar_eq others 0 0 0 0 (by omega) (by omega) (by omega)
        (by omega)]
      simp only [Nat.zero_add]
      rcases hrs : (ready && statOk) with _ | _ <;>
        simp only [Bool.false_eq_true, if_false, if_true, reduceIte,
          statZero] <;>
        [skip; skip] <;>
      · rw [add64_eq (by omega), add64_eq (by omega),
          add64_eq (by omega), add64_eq (by omega),
          add64_eq (by omega), add64_eq (by omega)]
        constructor
        · intro hok
          split_ifs at hok with c1 c2 c3 c4
          try exact Except.noConfusion hok
          refine Or.inr (Or.inr ⟨by omega, ?_⟩)
          by_cases hloop : backend = "loop".toList
          · exact Or.inl hloop
          · refine Or.inr ?_
            rcases not_and_or.mp c4 with hc | hc
            · exact absurd hloop hc
            · omega
        · intro hrhs
          rcases hrhs with hx | hx | ⟨hspace, hinode⟩
          · exact absurd hx hb'
          · exact absurd hx hz'
          · rw [if_neg (by omega), if_neg ?_, if_neg (by omega), if_neg ?_]
            · intro ⟨hne, hlt⟩
              rcases hinode with hl | hcov
              · exact hne hl
              · omega
            · intro ⟨hlt, hne⟩
              rcases hinode with hl | hcov
              · exact hne hl
              · omega

theorem checkGuarantee_error_noSpace (backend : Str) (ready statOk : Bool)
    (cur total : TStatFS) (others : List VolOther) (sg ig : Nat) :
    ∀ e, checkGuarantee backend ready statOk cur total others sg ig =
      .error e → e = .NoSpace := by
  intro e h
  simp only [checkGuarantee] at h
  repeat' split at h
  all_goals
    first
      | exact Except.noConfusion h
      | (injection h with h2; exact h2.symm)

theorem tuneGuarantee_error_unchanged (backend : Str) (ready statOk : Bool)
    (cur total : TStatFS) (others : List VolOther) (cfgSg cfgIg : Nat)
    (reqSg reqIg : Option Nat) (e : EError) (cfg : Nat × Nat) :
    tuneGuarantee backend ready statOk cur total others cfgSg cfgIg
      reqSg reqIg = (.error e, cfg) → cfg = (cfgSg, cfgIg) := by
  intro h
  simp only [tuneGuarantee] at h
  repeat' split at h
  all_goals
    first
      | exact (congrArg Prod.snd h).symm
      | exact absurd (congrArg Prod.fst h) (by simp)

theorem tuneGuarantee_ok_set (backend : Str) (ready statOk : Bool)
    (cur total : TStatFS) (others : List VolOther) (cfgSg cfgIg : Nat)
    (reqSg reqIg : Option Nat) (cfg : Nat × Nat) :
    tuneGuarantee backend ready statOk cur total others cfgSg cfgIg
      reqSg reqIg = (.ok (), cfg) →
    cfg = (cfgSg, cfgIg) ∨ cfg = (reqSg.getD cfgSg, reqIg.getD cfgIg) := by
  intro h
  simp only [tuneGuarantee] at h
  repeat' split at h
  all_goals
    first
      | exact Or.inl (congrArg Prod.snd h).symm
      | exact Or.inr (congrArg Prod.snd h).symm

/-- C3: volume guarantee admission.  Amended characterization: under
no-overflow bounds, `CheckGuarantee` accepts exactly when the volume is
`rbd`/`tmpfs`, or no guarantee is requested, or the requested space
guarantee plus the guarantees of the other **participating** volumes on the
same device — which excludes `rbd` and `plain` volumes and volumes without
any guarantee, not merely volumes on other devices — is covered by the
available space plus this volume's usage (counted only when it is ready
and its stat succeeds) plus the space those participating volumes already
claim, with the analogous inode condition waived for `loop` volumes; every
rejection is the no-space error; and `Tune` leaves the configured
guarantees unchanged on rejection and installs the merged requested values
on success. -/
theorem c3_guarantee_amended (backend : Str) (ready statOk : Bool)
    (cur total : TStatFS) (others : List VolOther) (sg ig : Nat)
    (h1 : total.spaceAvail + cur.spaceUsage + spaceClaimedSum others < 2 ^ 64)
    (h2 : sg + spaceGuaranteedSum others < 2 ^ 64)
    (h3 : total.inodeAvail + cur.inodeUsage + inodeClaimedSum others < 2 ^ 64)
    (h4 : ig + inodeGuaranteedSum others < 2 ^ 64) :
    (checkGuarantee backend ready statOk cur total others sg ig = .ok () ↔
      (backend = "rbd".toList ∨ backend = "tmpfs".toList) ∨
      (sg = 0 ∧ ig = 0) ∨
      (sg + spaceGuaranteedSum others ≤
        total.spaceAvail + (if ready && statOk then cur.spaceUsage else 0) +
          spaceClaimedSum others ∧
       (backend = "loop".toList ∨
        ig + inodeGuaranteedSum others ≤
          total.inodeAvail + (if ready && statOk then cur.inodeUsage else 0) +
            inodeClaimedSum others))) ∧
    (∀ e, checkGuarantee backend ready statOk cur total others sg ig =
      .error e → e = .NoSpace) ∧
    (∀ cfgSg cfgIg reqSg reqIg e cfg,
      tuneGuarantee backend ready statOk cur total others cfgSg cfgIg
        reqSg reqIg = (.error e, cfg) → cfg = (cfgSg, cfgIg)) ∧
    (∀ cfgSg cfgIg reqSg reqIg cfg,
      tuneGuarantee backend ready statOk cur total others cfgSg cfgIg
        reqSg reqIg = (.ok (), cfg) →
      cfg = (cfgSg, cfgIg) ∨ cfg = (reqSg.getD cfgSg, reqIg.getD cfgIg)) :=
  ⟨checkGuarantee_ok_iff backend ready statOk cur total others sg ig
      h1 h2 h3 h4,
   checkGuarantee_error_noSpace backend ready statOk cur total others sg ig,
   fun cfgSg cfgIg reqSg reqIg e cfg =>
     tuneGuarantee_error_unchanged backend ready statOk cur total others
       cfgSg cfgIg reqSg reqIg e cfg,
   fun cfgSg cfgIg reqSg reqIg cfg =>
     tuneGuarantee_ok_set backend ready statOk cur total others
       cfgSg cfgIg reqSg reqIg cfg⟩

/-- C3 witness: a concrete `native` volume with guarantees 5/1 on a device
with 10 free bytes and 10 free inodes passes the check. -/
theorem c3_guarantee_witness :
    ((10 : Nat) + 3 + spaceClaimedSum [] < 2 ^ 64) ∧
    checkGuarantee "native".toList true true ⟨0, 3, 0, 2⟩ ⟨10, 2, 10, 1⟩
      [] 5 1 = .ok () :=
  ⟨by decide,
   ((c3_guarantee_amended "native".toList true true ⟨0, 3, 0, 2⟩
       ⟨10, 2, 10, 1⟩ [] 5 1 (by decide) (by decide) (by decide)
       (by decide)).1).mpr (by decide)⟩

/-- C3 counterexample to the claim as stated: a `plain` volume on the same
device holds a space guarantee of 100 against only 50 available bytes, so
the claim's aggregate — which sums the guarantees of **all** other volumes
on the device — is violated, yet `CheckGuarantee` accepts a new `native`
volume requesting 10, because the estimation loop skips `plain` (and `rbd`)
volumes. -/
theorem c3_guarantee_counterexample :
    checkGuarantee "native".toList true true statZero ⟨50, 0, 50, 0⟩
      [⟨"plain".toList, true, true, true, statZero, 100, 0⟩] 10 0 =
        .ok () ∧
    claimSpaceCovered ⟨50, 0, 50, 0⟩ 0
      [⟨"plain".toList, true, true, true, statZero, 100, 0⟩] 10 = false :=
  ⟨rfl, by decide⟩

/-! ## C4 — layer sanitization (`SanitizeLayer`, src/src/volume.cpp and
`TStorage::SanitizeLayer`, src/src/storage.cpp — the two bodies are
identical) -/

/-- A filesystem entry of a layer: a regular file (or any non-directory,
non-device object), a character device (`Mknod(S_IFCHR, dev)` creates one
with the given device number, here split as major/minor), or a directory
with its `trusted.overlay.opaque` xattr flag and its named entries. -/
inductive Ent where
  | file : Ent
  | chardev (major minor : Nat) : Ent
  | dir (opq : Bool) (entries : List (Str × Ent)) : Ent

mutual

/-- Decidable equality of entries (written out because the automatic
derivation does not handle the nested occurrence). -/
def entDecEq : (a b : Ent) → Decidable (a = b)
  | .file, .file => isTrue rfl
  | .file, .chardev _ _ => isFalse (fun h => Ent.noConfusion h)
  | .file, .dir _ _ => isFalse (fun h => Ent.noConfusion h)
  | .chardev _ _, .file => isFalse (fun h => Ent.noConfusion h)
  | .chardev a b, .chardev c d =>
    if h1 : a = c then
      if h2 : b = d then isTrue (by rw [h1, h2])
      else isFalse (fun h => h2 (by injection h))
    else isFalse (fun h => h1 (by injection h))
  | .chardev _ _, .dir _ _ => isFalse (fun h => Ent.noConfusion h)
  | .dir _ _, .file => isFalse (fun h => Ent.noConfusion h)
  | .dir _ _, .chardev _ _ => isFalse (fun h => Ent.noConfusion h)
  | .dir o1 l1, .dir o2 l2 =>
    if h1 : o1 = o2 then
      match entListDecEq l1 l2 with
      | isTrue h2 => isTrue (by rw [h1, h2])
      | isFalse h2 => isFalse (fun h => h2 (by injection h))
    else isFalse (fun h => h1 (by injection h))

/-- Decidable equality of entry lists. -/
def entListDecEq : (a b : List (Str × Ent)) → Decidable (a = b)
  | [], [] => isTrue rfl
  | [], _ :: _ => isFalse (fun h => List.noConfusion h)
  | _ :: _, [] => isFalse (fun h => List.noConfusion h)
  | (n1, e1) :: r1, (n2, e2) :: r2 =>
    if h1 : n1 = n2 then
      match entDecEq e1 e2 with
      | isTrue h2 =>
        match entListDecEq r1 r2 with
        | isTrue h3 => isTrue (by rw [h1, h2, h3])
        | isFalse h3 => isFalse (fun h => h3 (by injection h))
      | isFalse h2 => isFalse (fun h => h2 (by
          injection h with hp hr
          exact congrArg Prod.snd hp))
    else isFalse (fun h => h1 (by
      injection h with hp hr
      exact congrArg Prod.fst hp))

end

instance : DecidableEq Ent := entDecEq

/-- The aufs whiteout prefix `.wh.`. -/
def whPre : Str := ".wh.".toList

/-- The aufs metadata prefix `.wh..wh.`. -/
def whwhPre : Str := ".wh..wh.".toList

/-- The aufs opaque-directory marker `.wh..wh..opq`. -/
def opqName : Str := ".wh..wh..opq".toList

/-- `entry.compare(0, 4, ".wh.") == 0`. -/
def whPrefix (n : Str) : Bool := stringStartsWith n whPre

/-- `entry.compare(0, 8, ".wh..wh.") == 0`. -/
def whwhPrefix (n : Str) : Bool := stringStartsWith n whwhPre

/-- Looking an entry up by name (the filesystem state of `path.Exists`,
`path.IsDirectoryStrict` and the modifications below). -/
def lookupEnt (l : List (Str × Ent)) (n : Str) : Option Ent :=
  match l with
  | [] => none
  | p :: r => if p.1 = n then some p.2 else lookupEnt r n

/-- `path.RemoveAll()` on the entry named `n`. -/
def eraseEnt (l : List (Str × Ent)) (n : Str) : List (Str × Ent) :=
  l.filter (fun p => decide (p.1 ≠ n))

/-- Replacing the entry named `n` by the value `v`, in place (the effect of
recursively sanitizing the subdirectory `n`). -/
def updateEnt (l : List (Str × Ent)) (n : Str) (v : Ent) :
    List (Str × Ent) :=
  l.map (fun p => if p.1 = n then (n, v) else p)

mutual

/-- `SanitizeLayer(layer, merge)` on a directory: read the snapshot of its
entries and run the entry loop over it (errors cannot arise in the
embedding, where every filesystem operation succeeds).  On anything that is
not a directory the function is never called; it is the identity there. -/
def sanitizeEnt (merge : Bool) : Ent → Ent
  | .dir opq l =>
    let st := sanitizeDir merge l (opq, l)
    .dir st.1 st.2
  | e => e

/-- The entry loop of `SanitizeLayer`: `snapshot` is the unprocessed tail
of the directory listing read at entry (pairs of name and the entry as it
was at read time), `st` is the current opaque flag and directory content.
A `.wh.`-named entry is removed; `.wh..wh..opq` additionally sets the
opaque flag; other `.wh..wh.` metadata has no further effect; `.wh.NAME`
additionally removes `NAME` when it exists and, outside merge mode,
creates the character device `(0, 0)` at `NAME`.  Any other entry is
recursed into when `path.IsDirectoryStrict()` holds; the loop never
creates a directory nor replaces one directory by another, so the current
entry at `n` is a directory exactly when it is still the snapshot entry
`e` unchanged and `e` is a directory, which is how the test is embedded. -/
def sanitizeDir (merge : Bool) (snapshot : List (Str × Ent))
    (st : Bool × List (Str × Ent)) : Bool × List (Str × Ent) :=
  match snapshot with
  | [] => st
  | (n, e) :: rest =>
    let opq := st.1
    let es := st.2
    if whPrefix n then
      let es := eraseEnt es n
      let opq := opq || (n = opqName)
      if whwhPrefix n then sanitizeDir merge rest (opq, es)
      else
        let target := n.drop 4
        let es :=
          if (lookupEnt es target).isSome then eraseEnt es target else es
        let es := if merge then es else es ++ [(target, Ent.chardev 0 0)]
        sanitizeDir merge rest (opq, es)
    else
      match e with
      | Ent.dir o2 l2 =>
        if lookupEnt es n = some (Ent.dir o2 l2) then
          sanitizeDir merge rest
            (opq, updateEnt es n (sanitizeEnt merge (Ent.dir o2 l2)))
        else sanitizeDir merge rest (opq, es)
      | _ => sanitizeDir merge rest (opq, es)

end

mutual

/-- The claim's sanitization, stated literally: in every directory,
recursively, `.wh..wh..opq` is removed and sets the opaque flag of its
directory; other `.wh..wh.*` entries are removed with no further effect;
`.wh.NAME` is removed together with `NAME` and, when not merging, leaves
the character device `(0, 0)` at `NAME`; entries not starting with `.wh.`
stay in place. -/
def claimSanitize (merge : Bool) : Ent → Ent
  | .dir opq l =>
    Ent.dir (opq || l.any (fun q => q.1 = opqName))
      (claimSurvivors merge (l.map Prod.fst) l ++
        (if merge then [] else
          (l.filter (fun q => whPrefix q.1 && !whwhPrefix q.1)).map
            (fun q => (q.1.drop 4, Ent.chardev 0 0))))
  | e => e

/-- The surviving entries of one directory under the claim's rule: those
whose name does not start with `.wh.` and is not whiteouted by a
`.wh.`-prefixed sibling, each recursively sanitized. -/
def claimSurvivors (merge : Bool) (ks : List Str) :
    List (Str × Ent) → List (Str × Ent)
  | [] => []
  | (n, e) :: r =>
    if !whPrefix n && !decide ((whPre ++ n) ∈ ks) then
      (n, claimSanitize merge e) :: claimSurvivors merge ks r
    else claimSurvivors merge ks r

end

mutual

/-- Well-formedness of a layer tree: in every directory, recursively, the
entry names are distinct (as they are in a real directory). -/
def wfEnt : Ent → Bool
  | .dir _ l => (l.map Prod.fst).Nodup && wfList l
  | _ => true

/-- Well-formedness of a list of entries. -/
def wfList : List (Str × Ent) → Bool
  | [] => true
  | p :: r => wfEnt p.2 && wfList r

end

/-- The names of a list of entries. -/
def keys (l : List (Str × Ent)) : List Str := l.map Prod.fst

/-- The whiteout targets introduced by the processed entries `p`: for each
non-metadata `.wh.NAME` entry, the name `NAME`. -/
def targets (p : List (Str × Ent)) : List Str :=
  (p.filter (fun q => whPrefix q.1 && !whwhPrefix q.1)).map
    (fun q => q.1.drop 4)

/-- Whether the entry named `m` is still present after the loop has
processed the entries `p`: a `.wh.`-named entry survives until its own
processing, any other entry until a whiteout targeting it is processed. -/
def surviveKeep (p : List (Str × Ent)) (m : Str) : Bool :=
  if whPrefix m then !decide (m ∈ keys p) else !decide (m ∈ targets p)

/-- The value of a surviving entry after the loop has processed `p`: its
subtree is sanitized once its own position has been processed. -/
def valAt (merge : Bool) (p : List (Str × Ent)) (q : Str × Ent) :
    Str × Ent :=
  (q.1, if q.1 ∈ keys p then sanitizeEnt merge q.2 else q.2)

/-- The overlayfs whiteout devices created while processing `p`. -/
def chardevsAfter (merge : Bool) (p : List (Str × Ent)) :
    List (Str × Ent) :=
  if merge then [] else
    (p.filter (fun q => whPrefix q.1 && !whwhPrefix q.1)).map
      (fun q => (q.1.drop 4, Ent.chardev 0 0))

/-- The opaque flag after processing `p`. -/
def opqAfter (opq0 : Bool) (p : List (Str × Ent)) : Bool :=
  opq0 || p.any (fun q => decide (q.1 = opqName))

/-- The directory content after the loop over the snapshot `l` has
processed its prefix `p`: the surviving original entries, sanitized where
already processed, followed by the created whiteout devices. -/
def esAfter (merge : Bool) (l p : List (Str × Ent)) :
    List (Str × Ent) :=
  (l.filter (fun q => surviveKeep p q.1)).map (valAt merge p) ++
    chardevsAfter merge p

theorem whPre_length : whPre.length = 4 := by decide

theorem whwhPre_eq : whwhPre = whPre ++ whPre := by decide

theorem whPrefix_eq {n : Str} (h : whPrefix n = true) :
    n = whPre ++ n.drop 4 := by
  obtain ⟨t, ht⟩ := (stringStartsWith_iff n whPre).mp h
  subst ht
  rw [show (4 : Nat) = whPre.length from rfl, List.drop_left]

theorem whwhPrefix_drop {n : Str} (h : whPrefix n = true) :
    whwhPrefix n = whPrefix (n.drop 4) := by
  have hn := whPrefix_eq h
  have hiff : whwhPrefix n = true ↔ whPrefix (n.drop 4) = true := by
    rw [whwhPrefix, whPrefix, stringStartsWith_iff, stringStartsWith_iff,
      whwhPre_eq]
    constructor
    · intro hp
      obtain ⟨t, ht⟩ := hp
      rw [List.append_assoc] at ht
      rw [hn] at ht
      exact ⟨t, List.append_cancel_left ht⟩
    · intro hp
      obtain ⟨t, ht⟩ := hp
      exact ⟨t, by rw [hn, ← ht, List.append_assoc]⟩
  cases hb : whwhPrefix n <;> cases hc : whPrefix (n.drop 4) <;>
    simp [hb, hc] at hiff ⊢

theorem whPrefix_append (t : Str) : whPrefix (whPre ++ t) = true :=
  (stringStartsWith_iff _ _).mpr ⟨t, rfl⟩

theorem drop_whPre_append (t : Str) : (whPre ++ t).drop 4 = t := by
  rw [show (4 : Nat) = whPre.length from rfl, List.drop_left]

theorem target_not_wh {n : Str} (h : whPrefix n = true)
    (hm : whwhPrefix n = false) : whPrefix (n.drop 4) = false := by
  rw [whwhPrefix_drop h] at hm
  exact hm

theorem mem_targets_iff {p : List (Str × Ent)} {t : Str}
    (ht : whPrefix t = false) :
    t ∈ targets p ↔ (whPre ++ t) ∈ keys p := by
  constructor
  · intro hm
    obtain ⟨q, hq, hqt⟩ := List.mem_map.mp hm
    have hqf := List.mem_filter.mp hq
    have hwh : whPrefix q.1 = true := by
      have := hqf.2
      simp only [Bool.and_eq_true] at this
      exact this.1
    have : q.1 = whPre ++ t := by
      rw [whPrefix_eq hwh, hqt]
    rw [← this]
    exact List.mem_map.mpr ⟨q, hqf.1, rfl⟩
  · intro hm
    obtain ⟨q, hq, hqt⟩ := List.mem_map.mp hm
    refine List.mem_map.mpr ⟨q, List.mem_filter.mpr ⟨hq, ?_⟩, ?_⟩
    · have hwh : whPrefix q.1 = true := by rw [hqt]; exact whPrefix_append t
      have hnm : whwhPrefix q.1 = false := by
        rw [whwhPrefix_drop hwh, hqt, drop_whPre_append]
        exact ht
      rw [hwh, hnm]
      rfl
    · rw [hqt, drop_whPre_append]

instance : Inhabited Ent := ⟨Ent.file⟩

theorem filterEnt_cons_pos {g : Str × Ent → Bool} {p : Str × Ent}
    (r : List (Str × Ent)) (h : g p = true) :
    (p :: r).filter g = p :: r.filter g := by
  simp [List.filter_cons, h]

theorem filterEnt_cons_neg {g : Str × Ent → Bool} {p : Str × Ent}
    (r : List (Str × Ent)) (h : g p = false) :
    (p :: r).filter g = r.filter g := by
  simp [List.filter_cons, h]

theorem lookupEnt_eq_none {L : List (Str × Ent)} {n : Str} :
    lookupEnt L n = none ↔ n ∉ keys L := by
  induction L with
  | nil => simp [lookupEnt, keys]
  | cons p r ih =>
    by_cases h : p.1 = n
    · simp [lookupEnt, h, keys]
    · simp [lookupEnt, h, keys, ih, Ne.symm h]

theorem lookupEnt_append_left {a : List (Str × Ent)}
    {n : Str} {v : Ent} (h : lookupEnt a n = some v)
    (b : List (Str × Ent)) : lookupEnt (a ++ b) n = some v := by
  induction a with
  | nil => exact Option.noConfusion h
  | cons p r ih =>
    by_cases hp : p.1 = n
    · rw [lookupEnt, if_pos hp] at h
      rw [List.cons_append, lookupEnt, if_pos hp]
      exact h
    · rw [lookupEnt, if_neg hp] at h
      rw [List.cons_append, lookupEnt, if_neg hp]
      exact ih h

theorem lookupEnt_append_right {a : List (Str × Ent)} {n : Str}
    (h : lookupEnt a n = none) (b : List (Str × Ent)) :
    lookupEnt (a ++ b) n = lookupEnt b n := by
  induction a with
  | nil => rfl
  | cons p r ih =>
    by_cases hp : p.1 = n
    · rw [lookupEnt, if_pos hp] at h
      exact Option.noConfusion h
    · rw [lookupEnt, if_neg hp] at h
      rw [List.cons_append, lookupEnt, if_neg hp]
      exact ih h

theorem lookupEnt_filterKey (g : Str → Bool) (L : List (Str × Ent))
    (n : Str) :
    lookupEnt (L.filter (fun q => g q.1)) n =
      if g n then lookupEnt L n else none := by
  induction L with
  | nil => simp [lookupEnt]
  | cons p r ih =>
    by_cases hg : g p.1 = true
    · rw [filterEnt_cons_pos r hg]
      by_cases hp : p.1 = n
      · rw [lookupEnt, if_pos hp, lookupEnt, if_pos hp, ← hp, if_pos hg]
      · rw [lookupEnt, if_neg hp, lookupEnt, if_neg hp, ih]
    · rw [filterEnt_cons_neg r (Bool.eq_false_iff.mpr hg)]
      by_cases hp : p.1 = n
      · rw [ih, lookupEnt, if_pos hp, ← hp, if_neg hg, if_neg hg]
      · rw [ih, lookupEnt, if_neg hp]

theorem lookupEnt_mapVal (f : Str → Ent → Ent) (L : List (Str × Ent))
    (n : Str) :
    lookupEnt (L.map (fun q => (q.1, f q.1 q.2))) n =
      (lookupEnt L n).map (f n) := by
  induction L with
  | nil => rfl
  | cons p r ih =>
    by_cases hp : p.1 = n
    · rw [List.map_cons, lookupEnt, lookupEnt, if_pos hp]
      rw [show ((p.1, f p.1 p.2) : Str × Ent).1 = p.1 from rfl, if_pos hp]
      rw [hp]
      rfl
    · rw [List.map_cons, lookupEnt, lookupEnt, if_neg hp]
      rw [show ((p.1, f p.1 p.2) : Str × Ent).1 = p.1 from rfl, if_neg hp]
      exact ih

theorem eraseEnt_append (a b : List (Str × Ent)) (n : Str) :
    eraseEnt (a ++ b) n = eraseEnt a n ++ eraseEnt b n :=
  List.filter_append a b

theorem eraseEnt_of_not_mem {L : List (Str × Ent)} {n : Str}
    (h : n ∉ keys L) : eraseEnt L n = L := by
  induction L with
  | nil => rfl
  | cons p r ih =>
    have hp : p.1 ≠ n := fun hx => h (by simp [keys, hx])
    have hr : n ∉ keys r := fun hx =>
      h (by simp only [keys, List.map_cons, List.mem_cons]; exact Or.inr hx)
    rw [eraseEnt, filterEnt_cons_pos r (by simpa using hp)]
    rw [eraseEnt] at ih
    rw [ih hr]

theorem eraseEnt_mapVal (f : Str → Ent → Ent) (L : List (Str × Ent))
    (n : Str) :
    eraseEnt (L.map (fun q => (q.1, f q.1 q.2))) n =
      (eraseEnt L n).map (fun q => (q.1, f q.1 q.2)) := by
  induction L with
  | nil => rfl
  | cons p r ih =>
    rw [eraseEnt] at ih
    by_cases hp : p.1 = n
    · rw [List.map_cons, eraseEnt, filterEnt_cons_neg _ (by simpa using hp),
        eraseEnt, filterEnt_cons_neg r (by simpa using hp)]
      exact ih
    · rw [List.map_cons, eraseEnt, filterEnt_cons_pos _ (by simpa using hp),
        eraseEnt, filterEnt_cons_pos r (by simpa using hp), List.map_cons]
      rw [ih]
      rfl

theorem eraseEnt_filterKey (g : Str → Bool) (L : List (Str × Ent))
    (n : Str) :
    eraseEnt (L.filter (fun q => g q.1)) n =
      L.filter (fun q => g q.1 && decide (q.1 ≠ n)) := by
  induction L with
  | nil => rfl
  | cons p r ih =>
    rw [eraseEnt] at ih
    by_cases hg : g p.1 = true
    · by_cases hp : p.1 = n
      · rw [filterEnt_cons_pos r hg, eraseEnt,
          filterEnt_cons_neg _ (by simpa using hp),
          filterEnt_cons_neg r (by simp [hg, hp])]
        exact ih
      · rw [filterEnt_cons_pos r hg, eraseEnt,
          filterEnt_cons_pos _ (by simpa using hp),
          filterEnt_cons_pos r (by simp [hg, hp])]
        rw [ih]
    · rw [filterEnt_cons_neg r (Bool.eq_false_iff.mpr hg),
        filterEnt_cons_neg r (by simp [hg])]
      exact ih

theorem updateEnt_append (a b : List (Str × Ent)) (n : Str) (v : Ent) :
    updateEnt (a ++ b) n v = updateEnt a n v ++ updateEnt b n v :=
  List.map_append _ a b

theorem updateEnt_of_not_mem {L : List (Str × Ent)} {n : Str} (v : Ent)
    (h : n ∉ keys L) : updateEnt L n v = L := by
  induction L with
  | nil => rfl
  | cons p r ih =>
    have hp : p.1 ≠ n := fun hx => h (by simp [keys, hx])
    have hr : n ∉ keys r := fun hx =>
      h (by simp only [keys, List.map_cons, List.mem_cons]; exact Or.inr hx)
    rw [updateEnt, List.map_cons, if_neg hp]
    rw [updateEnt] at ih
    rw [ih hr]

theorem lookupEnt_of_mem_nodup {L : List (Str × Ent)}
    (hnd : (keys L).Nodup) {n : Str} {e : Ent} (hm : (n, e) ∈ L) :
    lookupEnt L n = some e := by
  induction L with
  | nil => exact absurd hm (List.not_mem_nil _)
  | cons p r ih =>
    rw [keys, List.map_cons, List.nodup_cons] at hnd
    rcases List.mem_cons.mp hm with hh | ht
    · rw [lookupEnt, if_pos (by rw [← hh])]
      rw [← hh]
    · have hp : p.1 ≠ n := by
        intro hx
        exact hnd.1 (by
          rw [hx]
          exact List.mem_map.mpr ⟨(n, e), ht, rfl⟩)
      rw [lookupEnt, if_neg hp]
      exact ih hnd.2 ht

theorem mem_value_unique {L : List (Str × Ent)}
    (hnd : (keys L).Nodup) {n : Str} {x y : Ent} (hx : (n, x) ∈ L)
    (hy : (n, y) ∈ L) : x = y := by
  have h1 := lookupEnt_of_mem_nodup hnd hx
  have h2 := lookupEnt_of_mem_nodup hnd hy
  rw [h1] at h2
  exact Option.some.inj h2

theorem keys_append (a b : List (Str × Ent)) :
    keys (a ++ b) = keys a ++ keys b := List.map_append _ a b

theorem keys_snoc (p : List (Str × Ent)) (n : Str) (e : Ent) :
    keys (p ++ [(n, e)]) = keys p ++ [n] := keys_append p [(n, e)]

theorem mem_targets_not_wh {p : List (Str × Ent)} {m : Str}
    (h : m ∈ targets p) : whPrefix m = false := by
  obtain ⟨q, hq, hqt⟩ := List.mem_map.mp h
  have hqf := (List.mem_filter.mp hq).2
  simp only [Bool.and_eq_true, Bool.not_eq_true'] at hqf
  rw [← hqt]
  exact target_not_wh hqf.1 hqf.2

theorem targets_snoc_of_meta {n : Str} (p : List (Str × Ent)) (e : Ent)
    (hm : whwhPrefix n = true) : targets (p ++ [(n, e)]) = targets p := by
  unfold targets
  rw [List.filter_append,
    filterEnt_cons_neg [] (by simp [hm]), List.filter_nil,
    List.append_nil]

theorem targets_snoc_of_nonwh {n : Str} (p : List (Str × Ent)) (e : Ent)
    (hw : whPrefix n = false) : targets (p ++ [(n, e)]) = targets p := by
  unfold targets
  rw [List.filter_append,
    filterEnt_cons_neg [] (by simp [hw]), List.filter_nil,
    List.append_nil]

theorem targets_snoc_wh_nonmeta {n : Str} (p : List (Str × Ent)) (e : Ent)
    (hw : whPrefix n = true) (hm : whwhPrefix n = false) :
    targets (p ++ [(n, e)]) = targets p ++ [n.drop 4] := by
  unfold targets
  rw [List.filter_append,
    filterEnt_cons_pos [] (by simp [hw, hm]), List.filter_nil,
    List.map_append]
  rfl

theorem opqAfter_snoc (opq0 : Bool) (p : List (Str × Ent)) (n : Str)
    (e : Ent) :
    opqAfter opq0 (p ++ [(n, e)]) =
      (opqAfter opq0 p || decide (n = opqName)) := by
  unfold opqAfter
  rw [List.any_append, Bool.or_assoc]
  simp

theorem whPrefix_opqName : whPrefix opqName = true := by decide

theorem whwhPrefix_opqName : whwhPrefix opqName = true := by decide

theorem keys_chardevsAfter (p : List (Str × Ent)) :
    keys (chardevsAfter false p) = targets p := by
  unfold keys chardevsAfter targets
  rw [if_neg (by simp), List.map_map]
  rfl

theorem eraseEnt_chardevs_wh {n : Str} (merge : Bool)
    (p : List (Str × Ent)) (h : whPrefix n = true) :
    eraseEnt (chardevsAfter merge p) n = chardevsAfter merge p := by
  apply eraseEnt_of_not_mem
  intro hmem
  cases merge with
  | true => simp [chardevsAfter, keys] at hmem
  | false =>
    rw [keys_chardevsAfter] at hmem
    rw [mem_targets_not_wh hmem] at h
    exact Bool.false_ne_true h

theorem eraseEnt_chardevs_not_target {t : Str} (merge : Bool)
    (p : List (Str × Ent)) (h : t ∉ targets p) :
    eraseEnt (chardevsAfter merge p) t = chardevsAfter merge p := by
  apply eraseEnt_of_not_mem
  intro hmem
  cases merge with
  | true => simp [chardevsAfter, keys] at hmem
  | false =>
    rw [keys_chardevsAfter] at hmem
    exact h hmem

theorem updateEnt_chardevs_not_target {t : Str} (merge : Bool) (v : Ent)
    (p : List (Str × Ent)) (h : t ∉ targets p) :
    updateEnt (chardevsAfter merge p) t v = chardevsAfter merge p := by
  apply updateEnt_of_not_mem
  intro hmem
  cases merge with
  | true => simp [chardevsAfter, keys] at hmem
  | false =>
    rw [keys_chardevsAfter] at hmem
    exact h hmem

theorem lookupEnt_chardevs (merge : Bool) (p : List (Str × Ent))
    (n : Str) :
    lookupEnt (chardevsAfter merge p) n = none ∨
      lookupEnt (chardevsAfter merge p) n = some (Ent.chardev 0 0) := by
  cases merge with
  | true => exact Or.inl rfl
  | false =>
    unfold chardevsAfter
    rw [if_neg (by simp)]
    generalize p.filter (fun q => whPrefix q.1 && !whwhPrefix q.1) = L
    induction L with
    | nil => exact Or.inl rfl
    | cons q r ih =>
      rw [List.map_cons, lookupEnt]
      by_cases hq : q.1.drop 4 = n
      · rw [if_pos hq]
        exact Or.inr rfl
      · rw [if_neg hq]
        exact ih

theorem surviveKeep_snoc_wh_meta {n : Str} (p : List (Str × Ent))
    (e : Ent) (hw : whPrefix n = true) (hm : whwhPrefix n = true)
    (m : Str) :
    surviveKeep (p ++ [(n, e)]) m =
      (surviveKeep p m && decide (m ≠ n)) := by
  unfold surviveKeep
  by_cases hwm : whPrefix m = true
  · rw [if_pos hwm, if_pos hwm, keys_snoc]
    simp [List.mem_append, decide_not]
  · have hne : m ≠ n := fun hx => by rw [hx, hw] at hwm; exact hwm rfl
    rw [if_neg hwm, if_neg hwm, targets_snoc_of_meta p e hm]
    simp [hne]

theorem surviveKeep_snoc_wh_nonmeta {n : Str} (p : List (Str × Ent))
    (e : Ent) (hw : whPrefix n = true) (hm : whwhPrefix n = false)
    (m : Str) :
    surviveKeep (p ++ [(n, e)]) m =
      (surviveKeep p m && decide (m ≠ n) && decide (m ≠ n.drop 4)) := by
  have htw : whPrefix (n.drop 4) = false := target_not_wh hw hm
  unfold surviveKeep
  by_cases hwm : whPrefix m = true
  · have hnt : m ≠ n.drop 4 := fun hx => by
      rw [hx, htw] at hwm; exact Bool.false_ne_true hwm
    rw [if_pos hwm, if_pos hwm, keys_snoc]
    simp [List.mem_append, decide_not, hnt]
  · have hne : m ≠ n := fun hx => by rw [hx, hw] at hwm; exact hwm rfl
    rw [if_neg hwm, if_neg hwm, targets_snoc_wh_nonmeta p e hw hm]
    simp [List.mem_append, decide_not, hne, Bool.and_comm]

theorem surviveKeep_snoc_nonwh {n : Str} (p : List (Str × Ent)) (e : Ent)
    (hw : whPrefix n = false) (m : Str) :
    surviveKeep (p ++ [(n, e)]) m = surviveKeep p m := by
  unfold surviveKeep
  by_cases hwm : whPrefix m = true
  · have hne : m ≠ n := fun hx => by rw [← hx, hwm] at hw; exact Bool.noConfusion hw
    rw [if_pos hwm, if_pos hwm, keys_snoc]
    simp [List.mem_append, hne]
  · rw [if_neg hwm, if_neg hwm, targets_snoc_of_nonwh p e hw]

theorem valAt_snoc_ne {merge : Bool} {p : List (Str × Ent)} {n : Str}
    {e : Ent} {q : Str × Ent} (h : q.1 ≠ n) :
    valAt merge (p ++ [(n, e)]) q = valAt merge p q := by
  unfold valAt
  rw [keys_snoc]
  simp [List.mem_append, h]

theorem chardevsAfter_snoc_skip {n : Str} (merge : Bool)
    (p : List (Str × Ent)) (e : Ent)
    (h : (whPrefix n && !whwhPrefix n) = false) :
    chardevsAfter merge (p ++ [(n, e)]) = chardevsAfter merge p := by
  unfold chardevsAfter
  cases merge with
  | true => rfl
  | false =>
    rw [if_neg (by simp), if_neg (by simp), List.filter_append,
      filterEnt_cons_neg [] h, List.filter_nil, List.append_nil]

theorem chardevsAfter_snoc_wh {n : Str} (merge : Bool)
    (p : List (Str × Ent)) (e : Ent) (hw : whPrefix n = true)
    (hm : whwhPrefix n = false) :
    chardevsAfter merge (p ++ [(n, e)]) =
      chardevsAfter merge p ++
        (if merge then [] else [(n.drop 4, Ent.chardev 0 0)]) := by
  unfold chardevsAfter
  cases merge with
  | true => rfl
  | false =>
    rw [if_neg (by simp), if_neg (by simp), if_neg (by simp),
      List.filter_append, filterEnt_cons_pos [] (by simp [hw, hm]),
      List.filter_nil, List.map_append]
    rfl

theorem eraseEnt_map_valAt (merge : Bool) (p L : List (Str × Ent))
    (n : Str) :
    eraseEnt (L.map (valAt merge p)) n =
      (eraseEnt L n).map (valAt merge p) :=
  eraseEnt_mapVal
    (fun m x => if m ∈ keys p then sanitizeEnt merge x else x) L n

theorem lookupEnt_map_valAt (merge : Bool) (p L : List (Str × Ent))
    (n : Str) :
    lookupEnt (L.map (valAt merge p)) n =
      (lookupEnt L n).map
        (fun x => if n ∈ keys p then sanitizeEnt merge x else x) :=
  lookupEnt_mapVal
    (fun m x => if m ∈ keys p then sanitizeEnt merge x else x) L n

theorem erase_if_lookup (L : List (Str × Ent)) (t : Str) :
    (if (lookupEnt L t).isSome then eraseEnt L t else L) =
      eraseEnt L t := by
  by_cases h : (lookupEnt L t).isSome
  · rw [if_pos h]
  · rw [if_neg h]
    exact (eraseEnt_of_not_mem
      (lookupEnt_eq_none.mp (Option.not_isSome_iff_eq_none.mp h))).symm

theorem opqAfter_snoc_nonwh {n : Str} (opq0 : Bool)
    (p : List (Str × Ent)) (e : Ent) (hw : whPrefix n = false) :
    opqAfter opq0 (p ++ [(n, e)]) = opqAfter opq0 p := by
  rw [opqAfter_snoc]
  have hne : n ≠ opqName := fun hx => by
    rw [hx, whPrefix_opqName] at hw
    exact Bool.noConfusion hw
  simp [hne]

theorem step_wh_meta (merge : Bool) (l p : List (Str × Ent)) (n : Str)
    (e : Ent) (hw : whPrefix n = true) (hm : whwhPrefix n = true) :
    eraseEnt (esAfter merge l p) n = esAfter merge l (p ++ [(n, e)]) := by
  unfold esAfter
  rw [eraseEnt_append, eraseEnt_chardevs_wh merge p hw, eraseEnt_map_valAt,
    eraseEnt_filterKey,
    chardevsAfter_snoc_skip merge p e (by rw [hm]; simp)]
  congr 1
  have hfc : l.filter (fun q => surviveKeep (p ++ [(n, e)]) q.1) =
      l.filter (fun q => surviveKeep p q.1 && decide (q.1 ≠ n)) :=
    List.filter_congr (fun q _ => surviveKeep_snoc_wh_meta p e hw hm q.1)
  rw [hfc]
  apply List.map_congr_left
  intro q hq
  have hc := (List.mem_filter.mp hq).2
  simp only [Bool.and_eq_true, decide_eq_true_eq] at hc
  exact (valAt_snoc_ne hc.2).symm

theorem step_wh_nonmeta (merge : Bool) (l p : List (Str × Ent)) (n : Str)
    (e : Ent) (hw : whPrefix n = true) (hm : whwhPrefix n = false)
    (hnp : n ∉ keys p) :
    (if merge then eraseEnt (eraseEnt (esAfter merge l p) n) (n.drop 4)
     else eraseEnt (eraseEnt (esAfter merge l p) n) (n.drop 4) ++
       [(n.drop 4, Ent.chardev 0 0)]) =
      esAfter merge l (p ++ [(n, e)]) := by
  have htw : whPrefix (n.drop 4) = false := target_not_wh hw hm
  have hnt : n.drop 4 ∉ targets p := by
    intro hx
    have := (mem_targets_iff htw).mp hx
    rw [← whPrefix_eq hw] at this
    exact hnp this
  have h1 : eraseEnt (esAfter merge l p) n =
      (l.filter (fun q => surviveKeep p q.1 && decide (q.1 ≠ n))).map
        (valAt merge p) ++ chardevsAfter merge p := by
    unfold esAfter
    rw [eraseEnt_append, eraseEnt_chardevs_wh merge p hw,
      eraseEnt_map_valAt, eraseEnt_filterKey]
  have h2 := eraseEnt_filterKey
    (fun m => surviveKeep p m && decide (m ≠ n)) l (n.drop 4)
  have h3 : eraseEnt (eraseEnt (esAfter merge l p) n) (n.drop 4) =
      (l.filter (fun q =>
        (surviveKeep p q.1 && decide (q.1 ≠ n)) &&
          decide (q.1 ≠ n.drop 4))).map (valAt merge p) ++
        chardevsAfter merge p := by
    rw [h1, eraseEnt_append, eraseEnt_chardevs_not_target merge p hnt,
      eraseEnt_map_valAt, h2]
  have hfc : l.filter (fun q => surviveKeep (p ++ [(n, e)]) q.1) =
      l.filter (fun q =>
        (surviveKeep p q.1 && decide (q.1 ≠ n)) &&
          decide (q.1 ≠ n.drop 4)) :=
    List.filter_congr
      (fun q _ => surviveKeep_snoc_wh_nonmeta p e hw hm q.1)
  have h4 : (l.filter (fun q => surviveKeep (p ++ [(n, e)]) q.1)).map
        (valAt merge (p ++ [(n, e)])) =
      (l.filter (fun q =>
        (surviveKeep p q.1 && decide (q.1 ≠ n)) &&
          decide (q.1 ≠ n.drop 4))).map (valAt merge p) := by
    rw [hfc]
    apply List.map_congr_left
    intro q hq
    have hc := (List.mem_filter.mp hq).2
    simp only [Bool.and_eq_true, decide_eq_true_eq] at hc
    exact valAt_snoc_ne hc.1.2
  have hR : esAfter merge l (p ++ [(n, e)]) =
      (l.filter (fun q =>
        (surviveKeep p q.1 && decide (q.1 ≠ n)) &&
          decide (q.1 ≠ n.drop 4))).map (valAt merge p) ++
        (chardevsAfter merge p ++
          (if merge then [] else [(n.drop 4, Ent.chardev 0 0)])) := by
    unfold esAfter
    rw [h4, chardevsAfter_snoc_wh merge p e hw hm]
  rw [hR, h3]
  cases merge with
  | true => rw [if_pos rfl, if_pos rfl, List.append_nil]
  | false =>
    rw [if_neg (by simp), if_neg (by simp), List.append_assoc]

theorem esAfter_snoc_dead (merge : Bool) (l p : List (Str × Ent))
    (n : Str) (e : Ent) (hw : whPrefix n = false) (ht : n ∈ targets p) :
    esAfter merge l (p ++ [(n, e)]) = esAfter merge l p := by
  unfold esAfter
  rw [chardevsAfter_snoc_skip merge p e (by rw [hw]; rfl)]
  congr 1
  have hfc : l.filter (fun q => surviveKeep (p ++ [(n, e)]) q.1) =
      l.filter (fun q => surviveKeep p q.1) :=
    List.filter_congr (fun q _ => surviveKeep_snoc_nonwh p e hw q.1)
  rw [hfc]
  apply List.map_congr_left
  intro q hq
  have hqc := (List.mem_filter.mp hq).2
  have hskn : surviveKeep p n = false := by
    unfold surviveKeep
    rw [if_neg (by rw [hw]; exact Bool.noConfusion)]
    simp [ht]
  have hqn : q.1 ≠ n := fun hx => by
    rw [hx, hskn] at hqc
    exact Bool.noConfusion hqc
  exact valAt_snoc_ne hqn

theorem esAfter_snoc_nondir (merge : Bool) (l p : List (Str × Ent))
    (n : Str) (e : Ent) (hw : whPrefix n = false) (hnp : n ∉ keys p)
    (hid : sanitizeEnt merge e = e)
    (hval : ∀ x, (n, x) ∈ l → x = e) :
    esAfter merge l (p ++ [(n, e)]) = esAfter merge l p := by
  unfold esAfter
  rw [chardevsAfter_snoc_skip merge p e (by rw [hw]; rfl)]
  congr 1
  have hfc : l.filter (fun q => surviveKeep (p ++ [(n, e)]) q.1) =
      l.filter (fun q => surviveKeep p q.1) :=
    List.filter_congr (fun q _ => surviveKeep_snoc_nonwh p e hw q.1)
  rw [hfc]
  apply List.map_congr_left
  intro q hq
  by_cases hqn : q.1 = n
  · have hqe : q.2 = e := hval q.2 (by
      have := (List.mem_filter.mp hq).1
      rw [← hqn]
      exact this)
    unfold valAt
    rw [keys_snoc, hqn, hqe]
    simp [List.mem_append, hnp, hid]
  · exact valAt_snoc_ne hqn

theorem esAfter_snoc_update (merge : Bool) (l p : List (Str × Ent))
    (n : Str) (e : Ent) (hw : whPrefix n = false)
    (hnt : n ∉ targets p) (hval : ∀ x, (n, x) ∈ l → x = e) :
    updateEnt (esAfter merge l p) n (sanitizeEnt merge e) =
      esAfter merge l (p ++ [(n, e)]) := by
  unfold esAfter
  rw [updateEnt_append, updateEnt_chardevs_not_target merge _ p hnt,
    chardevsAfter_snoc_skip merge p e (by rw [hw]; rfl)]
  congr 1
  have hfc : l.filter (fun q => surviveKeep (p ++ [(n, e)]) q.1) =
      l.filter (fun q => surviveKeep p q.1) :=
    List.filter_congr (fun q _ => surviveKeep_snoc_nonwh p e hw q.1)
  rw [hfc]
  unfold updateEnt
  rw [List.map_map]
  apply List.map_congr_left
  intro q hq
  by_cases hqn : q.1 = n
  · have hqe : q.2 = e := hval q.2 (by
      have := (List.mem_filter.mp hq).1
      rw [← hqn]
      exact this)
    simp only [Function.comp, valAt, keys_snoc, hqn, hqe]
    simp [List.mem_append]
  · simp only [Function.comp, valAt, keys_snoc]
    simp [List.mem_append, hqn, Ne.symm hqn]

theorem lookupEnt_esAfter_target (merge : Bool) (l p : List (Str × Ent))
    (n : Str) (hw : whPrefix n = false) (ht : n ∈ targets p) :
    lookupEnt (esAfter merge l p) n = none ∨
      lookupEnt (esAfter merge l p) n = some (Ent.chardev 0 0) := by
  unfold esAfter
  have hskn : surviveKeep p n = false := by
    unfold surviveKeep
    rw [if_neg (by rw [hw]; exact Bool.noConfusion)]
    simp [ht]
  have hleft : lookupEnt
      ((l.filter (fun q => surviveKeep p q.1)).map (valAt merge p)) n =
      none := by
    rw [lookupEnt_map_valAt, lookupEnt_filterKey, if_neg (by
      rw [hskn]; exact Bool.noConfusion)]
    rfl
  rw [lookupEnt_append_right hleft]
  exact lookupEnt_chardevs merge p n

theorem lookupEnt_esAfter_live (merge : Bool) (l p : List (Str × Ent))
    (n : Str) (e : Ent) (hnd : (keys l).Nodup) (hmem : (n, e) ∈ l)
    (hw : whPrefix n = false) (hnp : n ∉ keys p) (hnt : n ∉ targets p) :
    lookupEnt (esAfter merge l p) n = some e := by
  unfold esAfter
  have hskn : surviveKeep p n = true := by
    unfold surviveKeep
    rw [if_neg (by rw [hw]; exact Bool.noConfusion)]
    simp [hnt]
  have hleft : lookupEnt
      ((l.filter (fun q => surviveKeep p q.1)).map (valAt merge p)) n =
      some e := by
    rw [lookupEnt_map_valAt, lookupEnt_filterKey, if_pos hskn,
      lookupEnt_of_mem_nodup hnd hmem]
    simp [hnp]
  exact lookupEnt_append_left hleft _

theorem sanitizeDir_cons (merge : Bool) (n : Str) (e : Ent)
    (rest : List (Str × Ent)) (opq : Bool) (es : List (Str × Ent)) :
    sanitizeDir merge ((n, e) :: rest) (opq, es) =
      if whPrefix n then
        if whwhPrefix n then
          sanitizeDir merge rest (opq || decide (n = opqName), eraseEnt es n)
        else
          sanitizeDir merge rest (opq || decide (n = opqName),
            if merge then
              (if (lookupEnt (eraseEnt es n) (n.drop 4)).isSome then
                eraseEnt (eraseEnt es n) (n.drop 4)
              else eraseEnt es n)
            else
              (if (lookupEnt (eraseEnt es n) (n.drop 4)).isSome then
                eraseEnt (eraseEnt es n) (n.drop 4)
              else eraseEnt es n) ++ [(n.drop 4, Ent.chardev 0 0)])
      else
        match e with
        | Ent.dir o2 l2 =>
          if lookupEnt es n = some (Ent.dir o2 l2) then
            sanitizeDir merge rest
              (opq, updateEnt es n (sanitizeEnt merge (Ent.dir o2 l2)))
          else sanitizeDir merge rest (opq, es)
        | _ => sanitizeDir merge rest (opq, es) := by
  cases e <;> rw [sanitizeDir] <;>
    first
      | rfl
      | (intro a b h; exact Ent.noConfusion h)

theorem sanitizeDir_loop (merge : Bool) (l : List (Str × Ent))
    (hnd : (keys l).Nodup) (opq0 : Bool) :
    ∀ s p, l = p ++ s →
      sanitizeDir merge s (opqAfter opq0 p, esAfter merge l p) =
        (opqAfter opq0 l, esAfter merge l l) := by
  intro s
  induction s with
  | nil =>
    intro p hp
    rw [List.append_nil] at hp
    subst hp
    rfl
  | cons q rest ih =>
    obtain ⟨n, e⟩ := q
    intro p hp
    have hp' : l = (p ++ [(n, e)]) ++ rest := by
      rw [hp, List.append_assoc, List.singleton_append]
    have hkeys : keys l = keys p ++ n :: keys rest := by
      rw [hp, keys_append]
      rfl
    have hnp : n ∉ keys p := by
      intro hx
      rw [hkeys] at hnd
      exact (List.nodup_append.mp hnd).2.2 hx (List.mem_cons_self n _)
    have hmem : (n, e) ∈ l := by
      rw [hp]
      exact List.mem_append_right p (List.mem_cons_self _ _)
    have hval : ∀ x, (n, x) ∈ l → x = e := fun x hx =>
      mem_value_unique hnd hx hmem
    rw [sanitizeDir_cons]
    by_cases hwhn : whPrefix n = true
    · rw [if_pos hwhn]
      by_cases hmeta : whwhPrefix n = true
      · rw [if_pos hmeta]
        rw [step_wh_meta merge l p n e hwhn hmeta]
        rw [show (opqAfter opq0 p || decide (n = opqName)) =
            opqAfter opq0 (p ++ [(n, e)]) from (opqAfter_snoc opq0 p n e).symm]
        exact ih (p ++ [(n, e)]) hp'
      · have hm2 : whwhPrefix n = false := Bool.eq_false_iff.mpr hmeta
        rw [if_neg hmeta, erase_if_lookup]
        rw [step_wh_nonmeta merge l p n e hwhn hm2 hnp]
        rw [show (opqAfter opq0 p || decide (n = opqName)) =
            opqAfter opq0 (p ++ [(n, e)]) from (opqAfter_snoc opq0 p n e).symm]
        exact ih (p ++ [(n, e)]) hp'
    · have hw2 : whPrefix n = false := Bool.eq_false_iff.mpr hwhn
      rw [if_neg hwhn]
      cases e with
      | file =>
        rw [show esAfter merge l p = esAfter merge l (p ++ [(n, Ent.file)])
          from (esAfter_snoc_nondir merge l p n Ent.file hw2 hnp
            (by simp [sanitizeEnt]) hval).symm,
          show opqAfter opq0 p = opqAfter opq0 (p ++ [(n, Ent.file)])
          from (opqAfter_snoc_nonwh opq0 p Ent.file hw2).symm]
        exact ih (p ++ [(n, Ent.file)]) hp'
      | chardev a b =>
        rw [show esAfter merge l p =
            esAfter merge l (p ++ [(n, Ent.chardev a b)])
          from (esAfter_snoc_nondir merge l p n (Ent.chardev a b) hw2 hnp
            (by simp [sanitizeEnt]) hval).symm,
          show opqAfter opq0 p = opqAfter opq0 (p ++ [(n, Ent.chardev a b)])
          from (opqAfter_snoc_nonwh opq0 p (Ent.chardev a b) hw2).symm]
        exact ih (p ++ [(n, Ent.chardev a b)]) hp'
      | dir o2 l2 =>
        change
          (if lookupEnt (esAfter merge l p) n = some (Ent.dir o2 l2) then
            sanitizeDir merge rest (opqAfter opq0 p,
              updateEnt (esAfter merge l p) n
                (sanitizeEnt merge (Ent.dir o2 l2)))
          else
            sanitizeDir merge rest (opqAfter opq0 p, esAfter merge l p)) =
          (opqAfter opq0 l, esAfter merge l l)
        by_cases htar : n ∈ targets p
        · have hrw : esAfter merge l p =
              esAfter merge l (p ++ [(n, Ent.dir o2 l2)]) :=
            (esAfter_snoc_dead merge l p n (Ent.dir o2 l2) hw2 htar).symm
          rcases lookupEnt_esAfter_target merge l p n hw2 htar with hlk | hlk
          · rw [if_neg (by rw [hlk]; simp)]
            rw [hrw,
              show opqAfter opq0 p =
                opqAfter opq0 (p ++ [(n, Ent.dir o2 l2)])
              from (opqAfter_snoc_nonwh opq0 p (Ent.dir o2 l2) hw2).symm]
            exact ih (p ++ [(n, Ent.dir o2 l2)]) hp'
          · rw [if_neg (by rw [hlk]; simp)]
            rw [hrw,
              show opqAfter opq0 p =
                opqAfter opq0 (p ++ [(n, Ent.dir o2 l2)])
              from (opqAfter_snoc_nonwh opq0 p (Ent.dir o2 l2) hw2).symm]
            exact ih (p ++ [(n, Ent.dir o2 l2)]) hp'
        · have hlk := lookupEnt_esAfter_live merge l p n (Ent.dir o2 l2)
            hnd hmem hw2 hnp htar
          rw [if_pos hlk]
          rw [esAfter_snoc_update merge l p n (Ent.dir o2 l2) hw2 htar hval]
          rw [show opqAfter opq0 p =
              opqAfter opq0 (p ++ [(n, Ent.dir o2 l2)])
            from (opqAfter_snoc_nonwh opq0 p (Ent.dir o2 l2) hw2).symm]
          exact ih (p ++ [(n, Ent.dir o2 l2)]) hp'

theorem wfList_mem : ∀ {l : List (Str × Ent)}, wfList l = true →
    ∀ {q : Str × Ent}, q ∈ l → wfEnt q.2 = true := by
  intro l
  induction l with
  | nil => intro _ q hq; exact absurd hq (List.not_mem_nil q)
  | cons p r ih =>
    intro h q hq
    rw [wfList, Bool.and_eq_true] at h
    rcases List.mem_cons.mp hq with h1 | h2
    · rw [h1]
      exact h.1
    · exact ih h.2 h2

theorem esAfter_nil (merge : Bool) (l : List (Str × Ent)) :
    esAfter merge l [] = l := by
  unfold esAfter
  have hch : chardevsAfter merge [] = [] := by
    unfold chardevsAfter
    cases merge <;> rfl
  rw [hch, List.append_nil]
  have hfl : l.filter (fun q => surviveKeep [] q.1) = l :=
    List.filter_eq_self.mpr (fun q _ => by
      unfold surviveKeep
      cases whPrefix q.1 <;> simp [keys, targets])
  rw [hfl]
  have hm : ∀ q ∈ l, valAt merge [] q = q := fun q _ => by
    unfold valAt
    simp [keys]
  rw [List.map_congr_left hm]
  exact List.map_id' l

theorem sanitizeEnt_dir (merge : Bool) (opq : Bool)
    (l : List (Str × Ent)) :
    sanitizeEnt merge (.dir opq l) =
      Ent.dir (sanitizeDir merge l (opq, l)).1
        (sanitizeDir merge l (opq, l)).2 := by
  rw [sanitizeEnt]

theorem claimSanitize_dir (merge : Bool) (opq : Bool)
    (l : List (Str × Ent)) :
    claimSanitize merge (.dir opq l) =
      Ent.dir (opq || l.any (fun q => decide (q.1 = opqName)))
        (claimSurvivors merge (l.map Prod.fst) l ++
          (if merge then [] else
            (l.filter (fun q => whPrefix q.1 && !whwhPrefix q.1)).map
              (fun q => (q.1.drop 4, Ent.chardev 0 0)))) := by
  rw [claimSanitize]

theorem claimSurvivors_eq (merge : Bool) (K : List Str) :
    ∀ L, claimSurvivors merge K L =
      (L.filter (fun q =>
        !whPrefix q.1 && !decide ((whPre ++ q.1) ∈ K))).map
        (fun q => (q.1, claimSanitize merge q.2)) := by
  intro L
  induction L with
  | nil => rw [claimSurvivors]; rfl
  | cons q r ih =>
    obtain ⟨n, e⟩ := q
    rw [claimSurvivors]
    by_cases hc : (!whPrefix n && !decide ((whPre ++ n) ∈ K)) = true
    · rw [if_pos hc, filterEnt_cons_pos r hc, List.map_cons, ih]
    · rw [if_neg hc, filterEnt_cons_neg r (Bool.eq_false_iff.mpr hc), ih]

theorem sanitizeEnt_eq_claim_bounded (merge : Bool) :
    ∀ N e, sizeOf e ≤ N → wfEnt e = true →
      sanitizeEnt merge e = claimSanitize merge e := by
  intro N
  induction N with
  | zero =>
    intro e hsz _
    cases e with
    | file => simp [sanitizeEnt, claimSanitize]
    | chardev a b => simp [sanitizeEnt, claimSanitize]
    | dir opq l => exact absurd hsz (by simp)
  | succ N ihN =>
    intro e hsz hwf
    cases e with
    | file => simp [sanitizeEnt, claimSanitize]
    | chardev a b => simp [sanitizeEnt, claimSanitize]
    | dir opq l =>
      rw [wfEnt] at hwf
      simp only [Bool.and_eq_true, decide_eq_true_eq] at hwf
      have hnd : (keys l).Nodup := hwf.1
      have hwl : wfList l = true := hwf.2
      have hloop := sanitizeDir_loop merge l hnd opq l [] (by simp)
      rw [show opqAfter opq [] = opq from by simp [opqAfter],
        esAfter_nil] at hloop
      rw [sanitizeEnt_dir, hloop, claimSanitize_dir]
      show Ent.dir (opqAfter opq l) (esAfter merge l l) = _
      congr 1
      rw [claimSurvivors_eq]
      unfold esAfter
      congr 1
      · have hfc : l.filter (fun q => surviveKeep l q.1) =
            l.filter (fun q =>
              !whPrefix q.1 &&
                !decide ((whPre ++ q.1) ∈ l.map Prod.fst)) :=
          List.filter_congr (fun q hq => by
            by_cases hw : whPrefix q.1 = true
            · have hk : q.1 ∈ keys l := List.mem_map.mpr ⟨q, hq, rfl⟩
              unfold surviveKeep
              rw [if_pos hw, hw]
              simp [hk]
            · have hw2 : whPrefix q.1 = false := Bool.eq_false_iff.mpr hw
              unfold surviveKeep
              rw [if_neg hw, hw2]
              have := mem_targets_iff (p := l) hw2
              simp only [Bool.not_true, Bool.false_and, Bool.not_false,
                Bool.true_and]
              rw [decide_eq_decide.mpr this]
              rfl)
        rw [hfc]
        apply List.map_congr_left
        intro q hq
        have hqf := List.mem_filter.mp hq
        have hkq : q.1 ∈ keys l := List.mem_map.mpr ⟨q, hqf.1, rfl⟩
        unfold valAt
        rw [if_pos hkq]
        have hszq : sizeOf q.2 ≤ N := by
          have h1 : sizeOf q < sizeOf l := List.sizeOf_lt_of_mem hqf.1
          have h2 : sizeOf q.2 < sizeOf q := by
            obtain ⟨a, b⟩ := q
            simp
          have h3 : sizeOf l < sizeOf (Ent.dir opq l) := by
            simp
          omega
        rw [ihN q.2 hszq (wfList_mem hwl hqf.1)]

/-- C4: layer sanitization.  Over any well-formed layer tree (distinct
entry names in every directory, as in a real filesystem), `SanitizeLayer`
implements exactly the claimed transform: in every directory, recursively,
`.wh..wh..opq` is removed and sets `trusted.overlay.opaque=y` on its
containing directory; every other entry starting with `.wh..wh.` is
removed with no further effect; `.wh.NAME` is removed together with the
entry `NAME` and, when not in merge mode, a character device with
major 0 and minor 0 is created at `NAME`; entries not starting with
`.wh.` are left in place, their subdirectories sanitized recursively. -/
theorem c4_sanitize_layer (merge : Bool) (e : Ent) (h : wfEnt e = true) :
    sanitizeEnt merge e = claimSanitize merge e :=
  sanitizeEnt_eq_claim_bounded merge (sizeOf e) e le_rfl h

/-- C4 witness: a concrete layer holding an opaque-directory marker, a
whiteout of the file `a`, and a subdirectory `b` with a whiteout of `c`;
sanitization (not merging) sets the opaque flag, removes the whiteouts and
their targets, and leaves overlayfs whiteout devices behind. -/
theorem c4_sanitize_layer_witness :
    wfEnt (Ent.dir false
      [(".wh..wh..opq".toList, Ent.file),
       (".wh.a".toList, Ent.file),
       ("a".toList, Ent.file),
       ("b".toList, Ent.dir false
         [(".wh.c".toList, Ent.file), ("c".toList, Ent.file),
          ("d".toList, Ent.file)])]) = true ∧
    sanitizeEnt false (Ent.dir false
      [(".wh..wh..opq".toList, Ent.file),
       (".wh.a".toList, Ent.file),
       ("a".toList, Ent.file),
       ("b".toList, Ent.dir false
         [(".wh.c".toList, Ent.file), ("c".toList, Ent.file),
          ("d".toList, Ent.file)])]) =
      claimSanitize false (Ent.dir false
        [(".wh..wh..opq".toList, Ent.file),
         (".wh.a".toList, Ent.file),
         ("a".toList, Ent.file),
         ("b".toList, Ent.dir false
           [(".wh.c".toList, Ent.file), ("c".toList, Ent.file),
            ("d".toList, Ent.file)])]) ∧
    claimSanitize false (Ent.dir false
      [(".wh..wh..opq".toList, Ent.file),
       (".wh.a".toList, Ent.file),
       ("a".toList, Ent.file),
       ("b".toList, Ent.dir false
         [(".wh.c".toList, Ent.file), ("c".toList, Ent.file),
          ("d".toList, Ent.file)])]) =
      Ent.dir true
        [("b".toList, Ent.dir false
           [("d".toList, Ent.file), ("c".toList, Ent.chardev 0 0)]),
         ("a".toList, Ent.chardev 0 0)] :=
  ⟨by decide, c4_sanitize_layer false _ (by decide), by decide⟩

end Porto


